import Mathlib

/-!
Shallow embedding of the batch matching engine of the zk-orderbook repository
(crates/orderbook/src/lib.rs), together with theorems settling the frozen
claims about its specification.

Conventions of the embedding:
* 32-byte hashes (`FixedBytes<32>`) are modelled as `List Nat` byte lists;
  the hash type is not length-constrained because no claim depends on it.
* SHA-256 (external `sha2` crate) is a parameter `sha : List Nat → Hash`
  of every definition that hashes; the claims do not depend on the digest
  function itself, only on its deterministic use.
* `u64` / `usize` values are `Nat`; subtraction sites in the source never
  underflow (`quantity - fill_qty` with `fill_qty = min`), and `Nat`
  truncated subtraction agrees with the source there.
* Panics (`assert!`) are modelled by returning `none` from `match_orders`.
-/

set_option maxRecDepth 100000

/-- 32-byte hash value (`FixedBytes<32>` in the source), as a byte list. -/
abbrev Hash := List Nat

/-- 20-byte Ethereum address, modelled by its numeric value. -/
abbrev Address := Nat

/-- `FixedBytes::ZERO`: the all-zero 32-byte hash. -/
def zeroHash : Hash := List.replicate 32 0

/-- Little-endian byte serialization of a number on `w` bytes
(`u64::to_le_bytes` with `w = 8`). -/
def leBytes (w n : Nat) : List Nat := (List.range w).map fun i => n / 256 ^ i % 256

/-- The 20 raw bytes of an address (`Address::as_slice`), big-endian. -/
def addressBytes (a : Address) : List Nat := (leBytes 20 a).reverse

/-- Order side: Buy or Sell. -/
inductive Side
  | Buy
  | Sell
deriving DecidableEq, Repr

/-- `side as u8`: Buy = 0, Sell = 1. -/
def Side.toByte : Side → Nat
  | .Buy => 0
  | .Sell => 1

/-- A limit order (struct `Order` in the source). -/
structure Order where
  side : Side
  price : Nat
  quantity : Nat
  owner : Address
  nonce : Nat
  expiry_batch : Nat
deriving DecidableEq, Repr

/-- The byte stream fed to SHA-256 by `Order::compute_utxo_id`:
side byte, then `price`, `quantity` (8 bytes LE each), the 20 owner
bytes, then `nonce` and `expiry_batch` (8 bytes LE each). -/
def Order.idBytes (o : Order) : List Nat :=
  [o.side.toByte] ++ leBytes 8 o.price ++ leBytes 8 o.quantity ++
    addressBytes o.owner ++ leBytes 8 o.nonce ++ leBytes 8 o.expiry_batch

/-- `Order::compute_utxo_id`: SHA-256 over the serialized order fields. -/
def Order.compute_utxo_id (sha : List Nat → Hash) (o : Order) : Hash :=
  sha o.idBytes

/-- A UTXO: id plus order data (struct `Utxo`). -/
structure Utxo where
  id : Hash
  order : Order
deriving DecidableEq, Repr

/-- `Utxo::new`: id is the content hash of the order. -/
def Utxo.new (sha : List Nat → Hash) (order : Order) : Utxo :=
  { id := order.compute_utxo_id sha, order := order }

/-- `Utxo::is_expired`: expired iff `expiry_batch < current_batch`. -/
def Utxo.isExpired (u : Utxo) (current_batch : Nat) : Bool :=
  u.order.expiry_batch < current_batch

/-- A UTXO together with its Merkle inclusion proof (struct `UtxoWithProof`). -/
structure UtxoWithProof where
  utxo : Utxo
  proof_hashes : List Hash
  leaf_index : Nat
deriving DecidableEq, Repr

/-- Modelled from the spec: root reconstruction of the external `rs_merkle`
crate's `MerkleProof::verify` (§4.3): walk level by level from the leaf;
at each level the proof supplies the sibling (left for an odd index, right
for an even index with a right neighbour), and the last node of an
odd-width level is promoted unhashed; internal nodes hash the
concatenation left‖right.  Returns `none` when the proof hashes are not
consumed exactly. -/
def rootFromProof (sha : List Nat → Hash) (width idx : Nat) (node : Hash)
    (proof : List Hash) : Option Hash :=
  if _h : width ≤ 1 then
    if proof = [] then some node else none
  else
    if idx % 2 = 0 then
      if idx + 1 < width then
        match proof with
        | sib :: rest => rootFromProof sha ((width + 1) / 2) (idx / 2) (sha (node ++ sib)) rest
        | [] => none
      else
        rootFromProof sha ((width + 1) / 2) (idx / 2) node proof
    else
      match proof with
      | sib :: rest => rootFromProof sha ((width + 1) / 2) (idx / 2) (sha (sib ++ node)) rest
      | [] => none
termination_by width
decreasing_by
  · omega
  · omega
  · omega

/-- `UtxoWithProof::verify`: verify the UTXO id as a leaf at `leaf_index`
against `root` with `total_leaves` leaves (via the external `rs_merkle`
verifier, modelled by `rootFromProof`). -/
def UtxoWithProof.verify (sha : List Nat → Hash) (u : UtxoWithProof)
    (root : Hash) (total_leaves : Nat) : Bool :=
  if u.leaf_index < total_leaves then
    match rootFromProof sha total_leaves u.leaf_index u.utxo.id u.proof_hashes with
    | some r => r = root
    | none => false
  else
    false

/-- One level of the Merkle tree of the external `rs_merkle` crate:
hash adjacent pairs, promote an unpaired last node. -/
def merklePass (sha : List Nat → Hash) : List Hash → List Hash
  | [] => []
  | [a] => [a]
  | a :: b :: rest => sha (a ++ b) :: merklePass sha rest

theorem merklePass_length_le (sha : List Nat → Hash) :
    ∀ l : List Hash, (merklePass sha l).length ≤ l.length
  | [] => by simp [merklePass]
  | [a] => by simp [merklePass]
  | a :: b :: rest => by
    have := merklePass_length_le sha rest
    simp only [merklePass, List.length_cons]
    omega

/-- Merkle root of a nonempty leaf list (`MerkleTree::from_leaves` + `root`). -/
def merkleRootNE (sha : List Nat → Hash) (l : List Hash) : Hash :=
  match l with
  | [] => zeroHash
  | [h] => h
  | a :: b :: rest => merkleRootNE sha (sha (a ++ b) :: merklePass sha rest)
termination_by l.length
decreasing_by
  have := merklePass_length_le sha rest
  simp only [List.length_cons]
  omega

/-- `compute_utxo_merkle_root`: the all-zero hash for the empty list,
otherwise the `rs_merkle` root over the ids used directly as leaves. -/
def compute_utxo_merkle_root (sha : List Nat → Hash) (utxo_ids : List Hash) : Hash :=
  if utxo_ids.isEmpty then zeroHash else merkleRootNE sha utxo_ids

/-- A fill of a matched trade (struct `Fill`). -/
structure Fill where
  maker_utxo_id : Hash
  taker_utxo_id : Hash
  price : Nat
  quantity : Nat
  maker : Address
  taker : Address
  maker_is_seller : Bool
deriving DecidableEq, Repr

/-- Input to the batch matching process (struct `BatchInput`). -/
structure BatchInput where
  batch_index : Nat
  utxo_merkle_root : Hash
  existing_utxos_with_proofs : List UtxoWithProof
  new_orders : List Order
deriving DecidableEq, Repr

/-- Output of the batch matching process (struct `BatchOutput`). -/
structure BatchOutput where
  batch_index : Nat
  fills : List Fill
  new_utxos : List Utxo
  consumed_utxo_ids : List Hash
  new_utxo_merkle_root : Hash
deriving DecidableEq, Repr

/-- Internal order entry used during matching (struct `OrderEntry`). -/
structure OrderEntry where
  utxo_id : Hash
  order : Order
deriving DecidableEq, Repr

/-- The book entry of a UTXO: its id together with its order. -/
def entryOfUtxo (u : Utxo) : OrderEntry := { utxo_id := u.id, order := u.order }

/-- The buy-book comparator of the source's `sort_by` call, as the
preorder "may precede": `a` may precede `b` iff the comparator
(price DESC, then nonce ASC) does not order `a` strictly after `b`. -/
def buyPrec (a b : OrderEntry) : Prop :=
  b.order.price < a.order.price ∨
    (b.order.price = a.order.price ∧ a.order.nonce ≤ b.order.nonce)

/-- The sell-book comparator (price ASC, then nonce ASC) as a preorder. -/
def sellPrec (a b : OrderEntry) : Prop :=
  a.order.price < b.order.price ∨
    (a.order.price = b.order.price ∧ a.order.nonce ≤ b.order.nonce)

instance : DecidableRel buyPrec := fun a b => by unfold buyPrec; infer_instance

instance : DecidableRel sellPrec := fun a b => by unfold sellPrec; infer_instance

instance : IsTotal OrderEntry buyPrec :=
  ⟨by intro a b; unfold buyPrec; omega⟩

instance : IsTotal OrderEntry sellPrec :=
  ⟨by intro a b; unfold sellPrec; omega⟩

instance : IsTrans OrderEntry buyPrec :=
  ⟨by intro a b c; unfold buyPrec; omega⟩

instance : IsTrans OrderEntry sellPrec :=
  ⟨by intro a b c; unfold sellPrec; omega⟩

/-- Ids of expired existing UTXOs, in input order (pushed onto
`consumed_utxo_ids` during the existing-UTXO scan of `match_orders`). -/
def expiredIds (current_batch : Nat) (uwps : List UtxoWithProof) : List Hash :=
  (uwps.filter fun u => u.utxo.isExpired current_batch).map fun u => u.utxo.id

/-- Book entries of the non-expired existing UTXOs, in input order. -/
def liveExisting (current_batch : Nat) (uwps : List UtxoWithProof) : List OrderEntry :=
  (uwps.filter fun u => !u.utxo.isExpired current_batch).map fun u => entryOfUtxo u.utxo

/-- Book entries of the non-expired new orders, in input order; each new
order first becomes a UTXO via `Utxo::new`. -/
def newEntries (sha : List Nat → Hash) (current_batch : Nat) (orders : List Order) :
    List OrderEntry :=
  (orders.filter fun o => !decide (o.expiry_batch < current_batch)).map
    fun o => entryOfUtxo (Utxo.new sha o)

/-- All book entries before sorting: non-expired existing UTXOs (in input
order) followed by non-expired new orders (in input order).  The source
routes each entry to `buy_orders` / `sell_orders` as it is encountered, so
each side's unsorted book is the side filter of this list. -/
def bookEntries (sha : List Nat → Hash) (input : BatchInput) : List OrderEntry :=
  liveExisting input.batch_index input.existing_utxos_with_proofs ++
    newEntries sha input.batch_index input.new_orders

/-- The sorted buy book: price DESC, nonce ASC.  Rust's `sort_by` is a
stable sort; the stable sort of a list by a total preorder is unique, and
`List.insertionSort` realises it. -/
def buyBook (sha : List Nat → Hash) (input : BatchInput) : List OrderEntry :=
  List.insertionSort buyPrec ((bookEntries sha input).filter fun e => e.order.side = Side.Buy)

/-- The sorted sell book: price ASC, nonce ASC (stable sort). -/
def sellBook (sha : List Nat → Hash) (input : BatchInput) : List OrderEntry :=
  List.insertionSort sellPrec ((bookEntries sha input).filter fun e => e.order.side = Side.Sell)

/-- `assert!(utxo_with_proof.verify(..))` for every existing UTXO, with
`total_leaves` the number of existing UTXOs in the input. -/
def allProofsOk (sha : List Nat → Hash) (input : BatchInput) : Bool :=
  input.existing_utxos_with_proofs.all fun u =>
    u.verify sha input.utxo_merkle_root input.existing_utxos_with_proofs.length

/-- The fill emitted for a maker/taker pair: execution price and owner
fields come from the maker. -/
def mkFill (maker taker : OrderEntry) (maker_is_seller : Bool) (fill_qty : Nat) : Fill :=
  { maker_utxo_id := maker.utxo_id
    taker_utxo_id := taker.utxo_id
    price := maker.order.price
    quantity := fill_qty
    maker := maker.order.owner
    taker := taker.order.owner
    maker_is_seller := maker_is_seller }

/-- Result of the crossing loop: fills and loop-consumed ids in emission
order, plus the residual suffixes of the two books (the entries from the
final cursor positions on, the heads carrying any partially filled
quantity). -/
structure LoopResult where
  fills : List Fill
  consumed : List Hash
  residBuys : List OrderEntry
  residSells : List OrderEntry
deriving DecidableEq, Repr

/-- An order entry with its quantity replaced (the in-place
`order.quantity = remaining` update of the source). -/
def OrderEntry.withQty (e : OrderEntry) (q : Nat) : OrderEntry :=
  { e with order := { e.order with quantity := q } }

/-- The crossing loop of `match_orders`, on the suffixes of the two sorted
books from the cursors on.  Mirrors the source: stop when a book is
exhausted or the best buy price is below the best sell price; otherwise
the smaller nonce is the maker (the sell entry on a nonce tie), the fill
quantity is the minimum of the two head quantities, and each head whose
remaining quantity reaches zero is consumed (buy id pushed before sell
id) while a nonzero remainder overwrites the head's quantity.  The final
branch is unreachable (one of the two remainders is always zero) and
returns the current state. -/
def matchLoop (buys sells : List OrderEntry) : LoopResult :=
  match buys, sells with
  | [], s => { fills := [], consumed := [], residBuys := [], residSells := s }
  | b :: bs, [] => { fills := [], consumed := [], residBuys := b :: bs, residSells := [] }
  | b :: bs, s :: ss =>
    if b.order.price < s.order.price then
      { fills := [], consumed := [], residBuys := b :: bs, residSells := s :: ss }
    else
      let fill_qty := min b.order.quantity s.order.quantity
      let f :=
        if b.order.nonce < s.order.nonce then mkFill b s false fill_qty
        else mkFill s b true fill_qty
      let buy_remaining := b.order.quantity - fill_qty
      let sell_remaining := s.order.quantity - fill_qty
      if buy_remaining = 0 then
        if sell_remaining = 0 then
          let r := matchLoop bs ss
          { r with fills := f :: r.fills, consumed := b.utxo_id :: s.utxo_id :: r.consumed }
        else
          let r := matchLoop bs (s.withQty sell_remaining :: ss)
          { r with fills := f :: r.fills, consumed := b.utxo_id :: r.consumed }
      else
        if sell_remaining = 0 then
          let r := matchLoop (b.withQty buy_remaining :: bs) ss
          { r with fills := f :: r.fills, consumed := s.utxo_id :: r.consumed }
        else
          { fills := [], consumed := [], residBuys := b :: bs, residSells := s :: ss }
termination_by buys.length + sells.length
decreasing_by
  all_goals simp only [List.length_cons]
  all_goals omega

/-- `match_orders`: verify every existing UTXO's Merkle proof (a failure
is the source's panicking `assert!`, modelled as `none`), split off
expired existing UTXOs into `consumed_utxo_ids`, build and sort the two
books, run the crossing loop, rebuild residual entries as fresh UTXOs
(buy residuals first, then sell residuals), and commit the Merkle root of
the new UTXO ids. -/
def match_orders (sha : List Nat → Hash) (input : BatchInput) : Option BatchOutput :=
  if allProofsOk sha input then
    let r := matchLoop (buyBook sha input) (sellBook sha input)
    let new_utxos := (r.residBuys ++ r.residSells).map fun e => Utxo.new sha e.order
    some
      { batch_index := input.batch_index
        fills := r.fills
        new_utxos := new_utxos
        consumed_utxo_ids :=
          expiredIds input.batch_index input.existing_utxos_with_proofs ++ r.consumed
        new_utxo_merkle_root := compute_utxo_merkle_root sha (new_utxos.map fun u => u.id) }
  else
    none

/-- A concrete stand-in digest used only to evaluate the model on concrete
inputs in witnesses and counterexamples: base-257 accumulation of the
byte stream, emitted as a one-element list. -/
def demoSha (bs : List Nat) : Hash :=
  [bs.foldl (fun a b => a * 257 + b + 1) 1]

/-! ## Wire-format structures and conversions (the `sol!` structs and `From` impls) -/

/-- Solidity `SolOrder` (wire form of an order; `side` is a raw byte). -/
structure SolOrder where
  side : Nat
  price : Nat
  quantity : Nat
  owner : Address
  nonce : Nat
  expiryBatch : Nat
deriving DecidableEq, Repr

/-- Solidity `SolUtxo`. -/
structure SolUtxo where
  id : Hash
  side : Nat
  price : Nat
  quantity : Nat
  owner : Address
  nonce : Nat
  expiryBatch : Nat
deriving DecidableEq, Repr

/-- Solidity `SolFill`. -/
structure SolFill where
  makerUtxoId : Hash
  takerUtxoId : Hash
  price : Nat
  quantity : Nat
  maker : Address
  taker : Address
  makerIsSeller : Bool
deriving DecidableEq, Repr

/-- Solidity `SolUtxoWithProof` (`leafIndex` is a uint256). -/
structure SolUtxoWithProof where
  id : Hash
  side : Nat
  price : Nat
  quantity : Nat
  owner : Address
  nonce : Nat
  expiryBatch : Nat
  proofHashes : List Hash
  leafIndex : Nat
deriving DecidableEq, Repr

/-- Solidity `SolBatchInput`. -/
structure SolBatchInput where
  batchIndex : Nat
  utxoMerkleRoot : Hash
  existingUtxosWithProofs : List SolUtxoWithProof
  newOrders : List SolOrder
deriving DecidableEq, Repr

/-- Solidity `SolBatchOutput`. -/
structure SolBatchOutput where
  batchIndex : Nat
  fills : List SolFill
  newUtxos : List SolUtxo
  consumedUtxoIds : List Hash
  newUtxoMerkleRoot : Hash
deriving DecidableEq, Repr

/-- Solidity `SolJournal`: a Steel commitment (opaque, modelled as `Nat`)
followed by the batch-output fields inline. -/
structure SolJournal where
  steelCommitment : Nat
  batchIndex : Nat
  fills : List SolFill
  newUtxos : List SolUtxo
  consumedUtxoIds : List Hash
  newUtxoMerkleRoot : Hash
deriving DecidableEq, Repr

/-- `From<&Order> for SolOrder`. -/
def Order.toSol (o : Order) : SolOrder :=
  { side := o.side.toByte, price := o.price, quantity := o.quantity,
    owner := o.owner, nonce := o.nonce, expiryBatch := o.expiry_batch }

/-- `From<&SolOrder> for Order`: a zero side byte decodes to Buy and any
other byte decodes to Sell. -/
def Order.fromSol (sol : SolOrder) : Order :=
  { side := if sol.side = 0 then Side.Buy else Side.Sell,
    price := sol.price, quantity := sol.quantity, owner := sol.owner,
    nonce := sol.nonce, expiry_batch := sol.expiryBatch }

/-- `From<&Utxo> for SolUtxo`. -/
def Utxo.toSol (u : Utxo) : SolUtxo :=
  { id := u.id, side := u.order.side.toByte, price := u.order.price,
    quantity := u.order.quantity, owner := u.order.owner,
    nonce := u.order.nonce, expiryBatch := u.order.expiry_batch }

/-- `From<&SolUtxo> for Utxo`: same total side decoding; the id is taken
from the wire, not recomputed. -/
def Utxo.fromSol (sol : SolUtxo) : Utxo :=
  { id := sol.id,
    order := { side := if sol.side = 0 then Side.Buy else Side.Sell,
               price := sol.price, quantity := sol.quantity, owner := sol.owner,
               nonce := sol.nonce, expiry_batch := sol.expiryBatch } }

/-- `From<&Fill> for SolFill`. -/
def Fill.toSol (f : Fill) : SolFill :=
  { makerUtxoId := f.maker_utxo_id, takerUtxoId := f.taker_utxo_id,
    price := f.price, quantity := f.quantity, maker := f.maker,
    taker := f.taker, makerIsSeller := f.maker_is_seller }

/-- `From<&UtxoWithProof> for SolUtxoWithProof` (`leafIndex` widens the
usize exactly into a uint256). -/
def UtxoWithProof.toSol (u : UtxoWithProof) : SolUtxoWithProof :=
  { id := u.utxo.id, side := u.utxo.order.side.toByte,
    price := u.utxo.order.price, quantity := u.utxo.order.quantity,
    owner := u.utxo.order.owner, nonce := u.utxo.order.nonce,
    expiryBatch := u.utxo.order.expiry_batch,
    proofHashes := u.proof_hashes, leafIndex := u.leaf_index }

/-- `From<&SolUtxoWithProof> for UtxoWithProof`: total side decoding, and
`leaf_index` is `sol.leafIndex.try_into().unwrap_or(0)`, i.e. `0` when
the uint256 does not fit a 64-bit usize. -/
def UtxoWithProof.fromSol (sol : SolUtxoWithProof) : UtxoWithProof :=
  { utxo :=
      { id := sol.id,
        order := { side := if sol.side = 0 then Side.Buy else Side.Sell,
                   price := sol.price, quantity := sol.quantity, owner := sol.owner,
                   nonce := sol.nonce, expiry_batch := sol.expiryBatch } },
    proof_hashes := sol.proofHashes,
    leaf_index := if sol.leafIndex < 2 ^ 64 then sol.leafIndex else 0 }

/-- `BatchInput::to_sol`. -/
def BatchInput.to_sol (b : BatchInput) : SolBatchInput :=
  { batchIndex := b.batch_index, utxoMerkleRoot := b.utxo_merkle_root,
    existingUtxosWithProofs := b.existing_utxos_with_proofs.map UtxoWithProof.toSol,
    newOrders := b.new_orders.map Order.toSol }

/-- `BatchInput::from_sol`. -/
def BatchInput.from_sol (sol : SolBatchInput) : BatchInput :=
  { batch_index := sol.batchIndex, utxo_merkle_root := sol.utxoMerkleRoot,
    existing_utxos_with_proofs := sol.existingUtxosWithProofs.map UtxoWithProof.fromSol,
    new_orders := sol.newOrders.map Order.fromSol }

/-- `BatchOutput::to_sol`. -/
def BatchOutput.to_sol (b : BatchOutput) : SolBatchOutput :=
  { batchIndex := b.batch_index, fills := b.fills.map Fill.toSol,
    newUtxos := b.new_utxos.map Utxo.toSol,
    consumedUtxoIds := b.consumed_utxo_ids,
    newUtxoMerkleRoot := b.new_utxo_merkle_root }

/-- `BatchOutput::to_journal`. -/
def BatchOutput.to_journal (b : BatchOutput) (commitment : Nat) : SolJournal :=
  { steelCommitment := commitment, batchIndex := b.batch_index,
    fills := b.fills.map Fill.toSol, newUtxos := b.new_utxos.map Utxo.toSol,
    consumedUtxoIds := b.consumed_utxo_ids,
    newUtxoMerkleRoot := b.new_utxo_merkle_root }

/-! ## Fuel-indexed computable twins

The loop and the Merkle recursions above are defined by well-founded
recursion, which the kernel does not evaluate; the following structurally
recursive twins take an explicit iteration budget and are proved equal to
them whenever the budget is large enough.  They are what witnesses and
counterexamples evaluate, and the budget-sufficiency lemmas are also the
formal content of the termination claim. -/

/-- `rootFromProof` with an explicit level budget. -/
def rootFromProofF (sha : List Nat → Hash) :
    Nat → Nat → Nat → Hash → List Hash → Option Hash
  | fuel, width, idx, node, proof =>
    if width ≤ 1 then
      if proof = [] then some node else none
    else
      match fuel with
      | 0 => none
      | fuel + 1 =>
        if idx % 2 = 0 then
          if idx + 1 < width then
            match proof with
            | sib :: rest =>
              rootFromProofF sha fuel ((width + 1) / 2) (idx / 2) (sha (node ++ sib)) rest
            | [] => none
          else
            rootFromProofF sha fuel ((width + 1) / 2) (idx / 2) node proof
        else
          match proof with
          | sib :: rest =>
            rootFromProofF sha fuel ((width + 1) / 2) (idx / 2) (sha (sib ++ node)) rest
          | [] => none

theorem rootFromProofF_eq (sha : List Nat → Hash) :
    ∀ (fuel width idx : Nat) (node : Hash) (proof : List Hash), width ≤ fuel + 1 →
      rootFromProofF sha fuel width idx node proof = rootFromProof sha width idx node proof := by
  intro fuel
  induction fuel with
  | zero =>
    intro width idx node proof hw
    have : width ≤ 1 := hw
    rw [rootFromProofF.eq_def, rootFromProof.eq_def]
    simp [this]
  | succ fuel ih =>
    intro width idx node proof hw
    rw [rootFromProofF.eq_def, rootFromProof.eq_def]
    by_cases h1 : width ≤ 1
    · simp [h1]
    · have hnext : (width + 1) / 2 ≤ fuel + 1 := by omega
      simp only [h1, if_false, dif_neg]
      by_cases he : idx % 2 = 0
      · by_cases hin : idx + 1 < width
        · cases proof with
          | nil => simp [he, hin]
          | cons sib rest => simp [he, hin, ih _ _ _ _ hnext]
        · simp [he, hin, ih _ _ _ _ hnext]
      · cases proof with
        | nil => simp [he]
        | cons sib rest => simp [he, ih _ _ _ _ hnext]

/-- `merkleRootNE` with an explicit level budget. -/
def merkleRootNEF (sha : List Nat → Hash) : Nat → List Hash → Hash
  | _, [] => zeroHash
  | _, [a] => a
  | 0, _ :: _ :: _ => zeroHash
  | fuel + 1, a :: b :: rest => merkleRootNEF sha fuel (sha (a ++ b) :: merklePass sha rest)

theorem merkleRootNEF_eq (sha : List Nat → Hash) :
    ∀ (fuel : Nat) (l : List Hash), l.length ≤ fuel + 1 →
      merkleRootNEF sha fuel l = merkleRootNE sha l := by
  intro fuel
  induction fuel with
  | zero =>
    intro l hl
    match l with
    | [] => rw [merkleRootNEF, merkleRootNE]
    | [a] => rw [merkleRootNEF, merkleRootNE]
    | a :: b :: rest => simp at hl
  | succ fuel ih =>
    intro l hl
    match l with
    | [] => rw [merkleRootNEF, merkleRootNE]
    | [a] => rw [merkleRootNEF, merkleRootNE]
    | a :: b :: rest =>
      rw [merkleRootNEF, merkleRootNE]
      apply ih
      have := merklePass_length_le sha rest
      simp only [List.length_cons] at hl ⊢
      omega

/-- `compute_utxo_merkle_root`, computably. -/
def compute_utxo_merkle_rootF (sha : List Nat → Hash) (utxo_ids : List Hash) : Hash :=
  if utxo_ids.isEmpty then zeroHash else merkleRootNEF sha utxo_ids.length utxo_ids

theorem compute_utxo_merkle_rootF_eq (sha : List Nat → Hash) (utxo_ids : List Hash) :
    compute_utxo_merkle_rootF sha utxo_ids = compute_utxo_merkle_root sha utxo_ids := by
  unfold compute_utxo_merkle_rootF compute_utxo_merkle_root
  rw [merkleRootNEF_eq sha utxo_ids.length utxo_ids (by omega)]

/-- `UtxoWithProof.verify`, computably. -/
def UtxoWithProof.verifyF (sha : List Nat → Hash) (u : UtxoWithProof)
    (root : Hash) (total_leaves : Nat) : Bool :=
  if u.leaf_index < total_leaves then
    match rootFromProofF sha total_leaves total_leaves u.leaf_index u.utxo.id u.proof_hashes with
    | some r => r = root
    | none => false
  else
    false

theorem verifyF_eq (sha : List Nat → Hash) (u : UtxoWithProof)
    (root : Hash) (total_leaves : Nat) :
    u.verifyF sha root total_leaves = u.verify sha root total_leaves := by
  unfold UtxoWithProof.verifyF UtxoWithProof.verify
  rw [rootFromProofF_eq sha total_leaves total_leaves u.leaf_index u.utxo.id u.proof_hashes
    (by omega)]

/-- `allProofsOk`, computably. -/
def allProofsOkF (sha : List Nat → Hash) (input : BatchInput) : Bool :=
  input.existing_utxos_with_proofs.all fun u =>
    u.verifyF sha input.utxo_merkle_root input.existing_utxos_with_proofs.length

theorem allProofsOkF_eq (sha : List Nat → Hash) (input : BatchInput) :
    allProofsOkF sha input = allProofsOk sha input := by
  unfold allProofsOkF allProofsOk
  congr 1
  funext u
  exact verifyF_eq sha u input.utxo_merkle_root input.existing_utxos_with_proofs.length

/-- The crossing loop with an explicit iteration budget. -/
def matchLoopF : Nat → List OrderEntry → List OrderEntry → LoopResult
  | _, [], s => { fills := [], consumed := [], residBuys := [], residSells := s }
  | _, b :: bs, [] => { fills := [], consumed := [], residBuys := b :: bs, residSells := [] }
  | 0, b :: bs, s :: ss =>
    { fills := [], consumed := [], residBuys := b :: bs, residSells := s :: ss }
  | fuel + 1, b :: bs, s :: ss =>
    if b.order.price < s.order.price then
      { fills := [], consumed := [], residBuys := b :: bs, residSells := s :: ss }
    else
      let fill_qty := min b.order.quantity s.order.quantity
      let f :=
        if b.order.nonce < s.order.nonce then mkFill b s false fill_qty
        else mkFill s b true fill_qty
      let buy_remaining := b.order.quantity - fill_qty
      let sell_remaining := s.order.quantity - fill_qty
      if buy_remaining = 0 then
        if sell_remaining = 0 then
          let r := matchLoopF fuel bs ss
          { r with fills := f :: r.fills, consumed := b.utxo_id :: s.utxo_id :: r.consumed }
        else
          let r := matchLoopF fuel bs (s.withQty sell_remaining :: ss)
          { r with fills := f :: r.fills, consumed := b.utxo_id :: r.consumed }
      else
        if sell_remaining = 0 then
          let r := matchLoopF fuel (b.withQty buy_remaining :: bs) ss
          { r with fills := f :: r.fills, consumed := s.utxo_id :: r.consumed }
        else
          { fills := [], consumed := [], residBuys := b :: bs, residSells := s :: ss }

theorem matchLoopF_eq :
    ∀ (fuel : Nat) (buys sells : List OrderEntry), buys.length + sells.length ≤ fuel →
      matchLoopF fuel buys sells = matchLoop buys sells := by
  intro fuel
  induction fuel with
  | zero =>
    intro buys sells h
    match buys, sells with
    | [], s => rw [matchLoopF, matchLoop]
    | b :: bs, [] => simp at h
  | succ fuel ih =>
    intro buys sells h
    match buys, sells with
    | [], s => rw [matchLoopF, matchLoop]
    | b :: bs, [] => rw [matchLoopF, matchLoop]
    | b :: bs, s :: ss =>
      rw [matchLoopF, matchLoop]
      simp only [List.length_cons] at h
      by_cases hp : b.order.price < s.order.price
      · simp [hp]
      · simp only [hp, if_false]
        by_cases hb : b.order.quantity - min b.order.quantity s.order.quantity = 0
        · by_cases hs : s.order.quantity - min b.order.quantity s.order.quantity = 0
          · simp only [hb, hs, if_true]
            rw [ih bs ss (by omega)]
          · simp only [hb, hs, if_true, if_false]
            rw [ih bs (s.withQty (s.order.quantity - min b.order.quantity s.order.quantity) :: ss)
              (by (try simp only [List.length_cons]); omega)]
        · by_cases hs : s.order.quantity - min b.order.quantity s.order.quantity = 0
          · simp only [hb, hs, if_true, if_false]
            rw [ih (b.withQty (b.order.quantity - min b.order.quantity s.order.quantity) :: bs) ss
              (by (try simp only [List.length_cons]); omega)]
          · simp [hb, hs]

/-- `match_orders`, computably: the loop budget is the total book size. -/
def match_ordersF (sha : List Nat → Hash) (input : BatchInput) : Option BatchOutput :=
  if allProofsOkF sha input then
    let r := matchLoopF ((buyBook sha input).length + (sellBook sha input).length)
      (buyBook sha input) (sellBook sha input)
    let new_utxos := (r.residBuys ++ r.residSells).map fun e => Utxo.new sha e.order
    some
      { batch_index := input.batch_index
        fills := r.fills
        new_utxos := new_utxos
        consumed_utxo_ids :=
          expiredIds input.batch_index input.existing_utxos_with_proofs ++ r.consumed
        new_utxo_merkle_root := compute_utxo_merkle_rootF sha (new_utxos.map fun u => u.id) }
  else
    none

theorem match_ordersF_eq (sha : List Nat → Hash) (input : BatchInput) :
    match_ordersF sha input = match_orders sha input := by
  unfold match_ordersF match_orders
  rw [allProofsOkF_eq,
    matchLoopF_eq ((buyBook sha input).length + (sellBook sha input).length)
      (buyBook sha input) (sellBook sha input) (by omega)]
  simp only [compute_utxo_merkle_rootF_eq]

/-! ## Helper lemmas about the crossing loop -/

theorem matchLoop_fills_length (buys sells : List OrderEntry) :
    (matchLoop buys sells).fills.length ≤ buys.length + sells.length := by
  induction buys, sells using matchLoop.induct with
  | case1 s => simp [matchLoop]
  | case2 b bs => simp [matchLoop]
  | case3 b bs s ss hp => simp [matchLoop, hp]
  | case4 b bs s ss hp fq br sr hb hs ih =>
    have hb' : b.order.quantity - min b.order.quantity s.order.quantity = 0 := hb
    have hs' : s.order.quantity - min b.order.quantity s.order.quantity = 0 := hs
    rw [matchLoop]
    simp only [hp, if_false, hb', hs', if_true, List.length_cons]
    omega
  | case5 b bs s ss hp fq br sr hb hs ih =>
    have hb' : b.order.quantity - min b.order.quantity s.order.quantity = 0 := hb
    have hs' : ¬s.order.quantity - min b.order.quantity s.order.quantity = 0 := hs
    have ih' : (matchLoop bs
        (s.withQty (s.order.quantity - min b.order.quantity s.order.quantity) :: ss)).fills.length ≤
        bs.length + (ss.length + 1) := by simpa using ih
    rw [matchLoop]
    simp only [hp, if_false, hb', hs', if_true, if_neg hs', List.length_cons]
    omega
  | case6 b bs s ss hp fq br sr hb hs ih =>
    have hb' : ¬b.order.quantity - min b.order.quantity s.order.quantity = 0 := hb
    have hs' : s.order.quantity - min b.order.quantity s.order.quantity = 0 := hs
    have ih' : (matchLoop
        (b.withQty (b.order.quantity - min b.order.quantity s.order.quantity) :: bs) ss).fills.length ≤
        (bs.length + 1) + ss.length := by simpa using ih
    rw [matchLoop]
    simp only [hp, if_false, if_neg hb', hs', if_true, List.length_cons]
    omega
  | case7 b bs s ss hp fq br sr hb hs =>
    have hb' : ¬b.order.quantity - min b.order.quantity s.order.quantity = 0 := hb
    have hs' : ¬s.order.quantity - min b.order.quantity s.order.quantity = 0 := hs
    rw [matchLoop]
    simp only [hp, if_false, if_neg hb', if_neg hs']
    simp

/-! ## Claims C4, C6, C7, C10 -/

/-- C4: if any `UtxoWithProof` in the input fails Merkle verification
against `prior_root` with `total_leaves` equal to the number of existing
UTXOs in the input, `match_orders` fails fatally (the source's `assert!`
panics, modelled as `none`) and produces no partial `BatchOutput`. -/
theorem match_orders_bad_proof_none (sha : List Nat → Hash) (input : BatchInput)
    (h : ∃ u ∈ input.existing_utxos_with_proofs,
      u.verify sha input.utxo_merkle_root input.existing_utxos_with_proofs.length = false) :
    match_orders sha input = none := by
  have hfalse : ¬ (allProofsOk sha input = true) := by
    intro hall
    obtain ⟨u, hu, hv⟩ := h
    have h2 : u.verify sha input.utxo_merkle_root
        input.existing_utxos_with_proofs.length = true := by
      simpa using List.all_eq_true.mp hall u hu
    rw [hv] at h2
    simp at h2
  unfold match_orders
  rw [if_neg hfalse]

/-- A UTXO whose Merkle proof does not verify against the zero root. -/
def badUwp : UtxoWithProof :=
  { utxo := Utxo.new demoSha
      { side := Side.Sell, price := 100, quantity := 10, owner := 7, nonce := 1,
        expiry_batch := 10 },
    proof_hashes := [], leaf_index := 0 }

/-- A batch input carrying `badUwp`, whose proof fails verification. -/
def c4Input : BatchInput :=
  { batch_index := 1, utxo_merkle_root := zeroHash,
    existing_utxos_with_proofs := [badUwp], new_orders := [] }

theorem match_orders_bad_proof_none_app :
    (∃ u ∈ c4Input.existing_utxos_with_proofs,
      u.verify demoSha c4Input.utxo_merkle_root
        c4Input.existing_utxos_with_proofs.length = false) ∧
    match_orders demoSha c4Input = none := by
  have hyp : ∃ u ∈ c4Input.existing_utxos_with_proofs,
      u.verify demoSha c4Input.utxo_merkle_root
        c4Input.existing_utxos_with_proofs.length = false := by
    refine ⟨badUwp, by decide, ?_⟩
    rw [← verifyF_eq]
    decide
  exact ⟨hyp, match_orders_bad_proof_none demoSha c4Input hyp⟩

/-- C6 (amended): `match_orders` performs no input-invariant validation —
its only check is Merkle-proof verification of the existing UTXOs.  It
produces a `BatchOutput` exactly when all proofs verify, regardless of
zero-quantity orders, duplicate nonces, or duplicate UTXO ids. -/
theorem match_orders_isSome_iff_proofs (sha : List Nat → Hash) (input : BatchInput) :
    (match_orders sha input).isSome = allProofsOk sha input := by
  unfold match_orders
  by_cases h : allProofsOk sha input = true
  · rw [if_pos h, h]
    rfl
  · rw [if_neg h]
    simp [Bool.not_eq_true _ ▸ (Bool.not_eq_true (allProofsOk sha input)).mp h]

/-- A sell UTXO duplicated verbatim in the existing set of `c6Input`. -/
def dupUtxo : Utxo :=
  Utxo.new demoSha
    { side := Side.Sell, price := 100, quantity := 10, owner := 7, nonce := 5,
      expiry_batch := 10 }

/-- A batch input violating all three input invariants at once: the
existing set lists the same UTXO id twice (with valid two-leaf proofs),
and the new orders contain a zero-quantity order and a duplicated
nonce. -/
def c6Input : BatchInput :=
  { batch_index := 1, utxo_merkle_root := demoSha (dupUtxo.id ++ dupUtxo.id),
    existing_utxos_with_proofs :=
      [ { utxo := dupUtxo, proof_hashes := [dupUtxo.id], leaf_index := 0 },
        { utxo := dupUtxo, proof_hashes := [dupUtxo.id], leaf_index := 1 } ],
    new_orders :=
      [ { side := Side.Buy, price := 100, quantity := 0, owner := 7, nonce := 9,
          expiry_batch := 10 },
        { side := Side.Buy, price := 100, quantity := 3, owner := 7, nonce := 9,
          expiry_batch := 10 } ] }

/-- C6 counterexample: a batch input with a zero-quantity order, two
orders sharing a nonce, and a non-unique UTXO id among the existing
UTXOs is not rejected: `match_orders` emits a `BatchOutput` for it. -/
theorem match_orders_no_validation_cex :
    (c6Input.new_orders.map fun o => o.quantity) = [0, 3] ∧
    (c6Input.new_orders.map fun o => o.nonce) = [9, 9] ∧
    (c6Input.existing_utxos_with_proofs.map fun u => u.utxo.id) = [dupUtxo.id, dupUtxo.id] ∧
    (match_orders demoSha c6Input).isSome = true := by
  refine ⟨rfl, rfl, rfl, ?_⟩
  rw [← match_ordersF_eq]
  decide

/-- C7 (amended): decoding the wire `side` byte is total — 0 decodes to
Buy and every nonzero byte (including invalid values ≥ 2) decodes to
Sell, for `Order`, `Utxo` and `UtxoWithProof` alike; no side value is a
decoding failure. -/
theorem side_decode_total (s : SolOrder) (u : SolUtxo) (w : SolUtxoWithProof) :
    (Order.fromSol s).side = (if s.side = 0 then Side.Buy else Side.Sell) ∧
    (Utxo.fromSol u).order.side = (if u.side = 0 then Side.Buy else Side.Sell) ∧
    (UtxoWithProof.fromSol w).utxo.order.side = (if w.side = 0 then Side.Buy else Side.Sell) :=
  ⟨rfl, rfl, rfl⟩

/-- A wire order with the invalid side byte 2. -/
def solOrderSide2 : SolOrder :=
  { side := 2, price := 100, quantity := 5, owner := 7, nonce := 1, expiryBatch := 10 }

/-- The same wire order with side byte 1 (Sell). -/
def solOrderSide1 : SolOrder :=
  { side := 1, price := 100, quantity := 5, owner := 7, nonce := 1, expiryBatch := 10 }

/-- A wire UTXO with the invalid side byte 2. -/
def solUtxoSide2 : SolUtxo :=
  { id := [3], side := 2, price := 100, quantity := 5, owner := 7, nonce := 1,
    expiryBatch := 10 }

/-- A wire UTXO-with-proof with the invalid side byte 2. -/
def solUwpSide2 : SolUtxoWithProof :=
  { id := [3], side := 2, price := 100, quantity := 5, owner := 7, nonce := 1,
    expiryBatch := 10, proofHashes := [], leafIndex := 0 }

/-- C7 counterexample: a side byte of 2 is not a decoding failure — the
decoders are total and map it to Sell, indistinguishably from side byte
1, for `Order`, `Utxo` and `UtxoWithProof`. -/
theorem side_decode_nonzero_cex :
    Order.fromSol solOrderSide2 = Order.fromSol solOrderSide1 ∧
    (Order.fromSol solOrderSide2).side = Side.Sell ∧
    (Utxo.fromSol solUtxoSide2).order.side = Side.Sell ∧
    (UtxoWithProof.fromSol solUwpSide2).utxo.order.side = Side.Sell :=
  ⟨rfl, rfl, rfl, rfl⟩

/-- C10: the crossing loop terminates within `|buy_book| + |sell_book|`
iterations on every input — running it with any iteration budget of at
least that sum already yields the final result (each iteration zeroes at
least one head, because the fill quantity is the minimum of the two head
quantities, so a cursor advances even when a head quantity is zero), and
the number of fills is bounded by the same sum. -/
theorem matchLoop_terminates (fuel : Nat) (buys sells : List OrderEntry)
    (h : buys.length + sells.length ≤ fuel) :
    matchLoopF fuel buys sells = matchLoop buys sells ∧
    (matchLoop buys sells).fills.length ≤ buys.length + sells.length :=
  ⟨matchLoopF_eq fuel buys sells h, matchLoop_fills_length buys sells⟩

/-- A concrete buy-book entry used to instantiate loop theorems. -/
def wEntryBuy : OrderEntry :=
  { utxo_id := [1],
    order := { side := Side.Buy, price := 100, quantity := 10, owner := 7, nonce := 1,
               expiry_batch := 10 } }

/-- A concrete sell-book entry used to instantiate loop theorems. -/
def wEntrySell : OrderEntry :=
  { utxo_id := [2],
    order := { side := Side.Sell, price := 99, quantity := 4, owner := 8, nonce := 2,
               expiry_batch := 10 } }

theorem matchLoop_terminates_app :
    matchLoopF 2 [wEntryBuy] [wEntrySell] = matchLoop [wEntryBuy] [wEntrySell] ∧
    (matchLoop [wEntryBuy] [wEntrySell]).fills.length ≤
      [wEntryBuy].length + [wEntrySell].length :=
  matchLoop_terminates 2 [wEntryBuy] [wEntrySell] (by decide)

/-! ## Loop invariants: residual structure -/

/-- Two entries that agree on every field except possibly the quantity —
the relation preserved by the loop's in-place quantity updates. -/
def sameButQty (a b : OrderEntry) : Prop :=
  a.utxo_id = b.utxo_id ∧ a.order.side = b.order.side ∧ a.order.price = b.order.price ∧
    a.order.owner = b.order.owner ∧ a.order.nonce = b.order.nonce ∧
    a.order.expiry_batch = b.order.expiry_batch

theorem sameButQty_refl (a : OrderEntry) : sameButQty a a :=
  ⟨rfl, rfl, rfl, rfl, rfl, rfl⟩

theorem sameButQty_withQty (a : OrderEntry) (q : Nat) : sameButQty (a.withQty q) a :=
  ⟨rfl, rfl, rfl, rfl, rfl, rfl⟩

theorem sameButQty_trans {a b c : OrderEntry} (h1 : sameButQty a b) (h2 : sameButQty b c) :
    sameButQty a c := by
  obtain ⟨x1, x2, x3, x4, x5, x6⟩ := h1
  obtain ⟨y1, y2, y3, y4, y5, y6⟩ := h2
  exact ⟨x1.trans y1, x2.trans y2, x3.trans y3, x4.trans y4, x5.trans y5, x6.trans y6⟩

/-- Membership up to quantity: some element of `l` agrees with `e` on
every field except possibly the quantity. -/
def coreMem (e : OrderEntry) (l : List OrderEntry) : Prop :=
  ∃ e0 ∈ l, sameButQty e e0

theorem coreMem_cons {e x : OrderEntry} {l : List OrderEntry} (h : coreMem e l) :
    coreMem e (x :: l) := by
  obtain ⟨e0, he0, hs⟩ := h
  exact ⟨e0, List.mem_cons_of_mem x he0, hs⟩

theorem coreMem_self {e : OrderEntry} {l : List OrderEntry} (h : e ∈ l) : coreMem e l :=
  ⟨e, h, sameButQty_refl e⟩

/-- Structure of the loop's residuals: each residual list is no longer
than its book, its tail is literally a final segment of the book (so the
emission order is the book order), and every residual entry is a book
entry up to quantity. -/
theorem matchLoop_resid (buys sells : List OrderEntry) :
    ((matchLoop buys sells).residBuys.length ≤ buys.length ∧
      (matchLoop buys sells).residSells.length ≤ sells.length) ∧
    ((matchLoop buys sells).residBuys.tail <:+ buys ∧
      (matchLoop buys sells).residSells.tail <:+ sells) ∧
    ((∀ e ∈ (matchLoop buys sells).residBuys, coreMem e buys) ∧
      (∀ e ∈ (matchLoop buys sells).residSells, coreMem e sells)) := by
  induction buys, sells using matchLoop.induct with
  | case1 s =>
    rw [matchLoop]
    refine ⟨⟨by simp, le_refl _⟩, ⟨by simp, ?_⟩, ⟨by simp, ?_⟩⟩
    · exact List.tail_suffix s
    · intro e he; exact coreMem_self he
  | case2 b bs =>
    rw [matchLoop]
    refine ⟨⟨le_refl _, by simp⟩, ⟨?_, by simp⟩, ⟨?_, by simp⟩⟩
    · exact List.suffix_cons b bs
    · intro e he; exact coreMem_self he
  | case3 b bs s ss hp =>
    rw [matchLoop]
    simp only [if_pos hp]
    refine ⟨⟨le_refl _, le_refl _⟩, ⟨List.suffix_cons b bs, List.suffix_cons s ss⟩,
      ⟨?_, ?_⟩⟩
    · intro e he; exact coreMem_self he
    · intro e he; exact coreMem_self he
  | case4 b bs s ss hp fq br sr hb hs ih =>
    have hb' : b.order.quantity - min b.order.quantity s.order.quantity = 0 := hb
    have hs' : s.order.quantity - min b.order.quantity s.order.quantity = 0 := hs
    rw [matchLoop]
    simp only [hp, if_false, hb', hs', if_true]
    obtain ⟨⟨l1, l2⟩, ⟨t1, t2⟩, ⟨m1, m2⟩⟩ := ih
    refine ⟨⟨?_, ?_⟩, ⟨?_, ?_⟩, ⟨?_, ?_⟩⟩
    · simp only [List.length_cons]; omega
    · simp only [List.length_cons]; omega
    · exact t1.trans (List.suffix_cons b bs)
    · exact t2.trans (List.suffix_cons s ss)
    · intro e he; exact coreMem_cons (m1 e he)
    · intro e he; exact coreMem_cons (m2 e he)
  | case5 b bs s ss hp fq br sr hb hs ih =>
    have hb' : b.order.quantity - min b.order.quantity s.order.quantity = 0 := hb
    have hs' : ¬s.order.quantity - min b.order.quantity s.order.quantity = 0 := hs
    rw [matchLoop]
    simp only [hp, if_false, hb', if_true, if_neg hs']
    obtain ⟨⟨l1, l2⟩, ⟨t1, t2⟩, ⟨m1, m2⟩⟩ := ih
    refine ⟨⟨?_, ?_⟩, ⟨?_, ?_⟩, ⟨?_, ?_⟩⟩
    · exact le_trans l1 (by simp)
    · exact le_trans l2 (by simp)
    · exact t1.trans (List.suffix_cons b bs)
    · rcases List.suffix_cons_iff.mp t2 with heq | h2
      · exfalso
        have hlen := congrArg List.length heq
        simp only [List.length_tail, List.length_cons] at hlen
        simp only [List.length_cons] at l2
        omega
      · exact h2.trans (List.suffix_cons s ss)
    · intro e he; exact coreMem_cons (m1 e he)
    · intro e he
      obtain ⟨e0, he0, hsq⟩ := m2 e he
      rcases List.mem_cons.mp he0 with rfl | h0
      · exact ⟨s, List.mem_cons_self s ss, sameButQty_trans hsq (sameButQty_withQty s _)⟩
      · exact ⟨e0, List.mem_cons_of_mem s h0, hsq⟩
  | case6 b bs s ss hp fq br sr hb hs ih =>
    have hb' : ¬b.order.quantity - min b.order.quantity s.order.quantity = 0 := hb
    have hs' : s.order.quantity - min b.order.quantity s.order.quantity = 0 := hs
    rw [matchLoop]
    simp only [hp, if_false, if_neg hb', hs', if_true]
    obtain ⟨⟨l1, l2⟩, ⟨t1, t2⟩, ⟨m1, m2⟩⟩ := ih
    refine ⟨⟨?_, ?_⟩, ⟨?_, ?_⟩, ⟨?_, ?_⟩⟩
    · exact le_trans l1 (by simp)
    · exact le_trans l2 (by simp)
    · rcases List.suffix_cons_iff.mp t1 with heq | h2
      · exfalso
        have hlen := congrArg List.length heq
        simp only [List.length_tail, List.length_cons] at hlen
        simp only [List.length_cons] at l1
        omega
      · exact h2.trans (List.suffix_cons b bs)
    · exact t2.trans (List.suffix_cons s ss)
    · intro e he
      obtain ⟨e0, he0, hsq⟩ := m1 e he
      rcases List.mem_cons.mp he0 with rfl | h0
      · exact ⟨b, List.mem_cons_self b bs, sameButQty_trans hsq (sameButQty_withQty b _)⟩
      · exact ⟨e0, List.mem_cons_of_mem b h0, hsq⟩
    · intro e he; exact coreMem_cons (m2 e he)
  | case7 b bs s ss hp fq br sr hb hs =>
    have hb' : ¬b.order.quantity - min b.order.quantity s.order.quantity = 0 := hb
    have hs' : ¬s.order.quantity - min b.order.quantity s.order.quantity = 0 := hs
    rw [matchLoop]
    simp only [hp, if_false, if_neg hb', if_neg hs']
    refine ⟨⟨le_refl _, le_refl _⟩, ⟨List.suffix_cons b bs, List.suffix_cons s ss⟩,
      ⟨?_, ?_⟩⟩
    · intro e he; exact coreMem_self he
    · intro e he; exact coreMem_self he

/-! ## Claims C2 and C8 -/

/-- Dropping the expired new orders up front changes nothing: the intake
already filters them. -/
theorem newEntries_filter (sha : List Nat → Hash) (current : Nat) (orders : List Order) :
    newEntries sha current (orders.filter fun o => !decide (o.expiry_batch < current)) =
      newEntries sha current orders := by
  unfold newEntries
  rw [List.filter_filter]
  simp

/-- Every unsorted book entry is non-expired: both intake passes filter on
`expiry_batch < batch_index`. -/
theorem bookEntries_not_expired (sha : List Nat → Hash) (input : BatchInput) :
    ∀ e ∈ bookEntries sha input, ¬ e.order.expiry_batch < input.batch_index := by
  intro e he
  unfold bookEntries at he
  rcases List.mem_append.mp he with hl | hn
  · unfold liveExisting at hl
    obtain ⟨u, hu, rfl⟩ := List.mem_map.mp hl
    have := (List.mem_filter.mp hu).2
    simp [Utxo.isExpired, entryOfUtxo] at this ⊢
    exact this
  · unfold newEntries at hn
    obtain ⟨o, ho, rfl⟩ := List.mem_map.mp hn
    have := (List.mem_filter.mp ho).2
    simp [entryOfUtxo, Utxo.new] at this ⊢
    exact this

/-- Sorted-book membership is unsorted-book membership. -/
theorem mem_buyBook_iff (sha : List Nat → Hash) (input : BatchInput) (e : OrderEntry) :
    e ∈ buyBook sha input ↔
      e ∈ (bookEntries sha input).filter fun x => x.order.side = Side.Buy := by
  unfold buyBook
  exact (List.perm_insertionSort buyPrec _).mem_iff

/-- Sorted-book membership is unsorted-book membership (sell side). -/
theorem mem_sellBook_iff (sha : List Nat → Hash) (input : BatchInput) (e : OrderEntry) :
    e ∈ sellBook sha input ↔
      e ∈ (bookEntries sha input).filter fun x => x.order.side = Side.Sell := by
  unfold sellBook
  exact (List.perm_insertionSort sellPrec _).mem_iff

theorem buyBook_not_expired (sha : List Nat → Hash) (input : BatchInput) :
    ∀ e ∈ buyBook sha input, ¬ e.order.expiry_batch < input.batch_index := by
  intro e he
  exact bookEntries_not_expired sha input e
    (List.mem_of_mem_filter ((mem_buyBook_iff sha input e).mp he))

theorem sellBook_not_expired (sha : List Nat → Hash) (input : BatchInput) :
    ∀ e ∈ sellBook sha input, ¬ e.order.expiry_batch < input.batch_index := by
  intro e he
  exact bookEntries_not_expired sha input e
    (List.mem_of_mem_filter ((mem_sellBook_iff sha input e).mp he))

/-- Destructing a successful `match_orders` run into its components. -/
theorem match_orders_some (sha : List Nat → Hash) (input : BatchInput) (out : BatchOutput)
    (h : match_orders sha input = some out) :
    out.batch_index = input.batch_index ∧
    out.fills = (matchLoop (buyBook sha input) (sellBook sha input)).fills ∧
    out.new_utxos =
      (((matchLoop (buyBook sha input) (sellBook sha input)).residBuys ++
        (matchLoop (buyBook sha input) (sellBook sha input)).residSells).map
        fun e => Utxo.new sha e.order) ∧
    out.consumed_utxo_ids =
      expiredIds input.batch_index input.existing_utxos_with_proofs ++
        (matchLoop (buyBook sha input) (sellBook sha input)).consumed ∧
    out.new_utxo_merkle_root =
      compute_utxo_merkle_root sha (out.new_utxos.map fun u => u.id) := by
  unfold match_orders at h
  by_cases hok : allProofsOk sha input = true
  · rw [if_pos hok] at h
    have hout := (Option.some.inj h).symm
    subst hout
    exact ⟨rfl, rfl, rfl, rfl, rfl⟩
  · rw [if_neg hok] at h
    exact absurd h (by simp)

/-- C2: the `new_utxos` of a successful batch are exactly the residual
book entries — rebuilt as fresh UTXOs — emitted as all buy-book residuals
in buy-book order followed by all sell-book residuals in sell-book order
(each residual list is a final segment of its sorted book, with only the
head's quantity possibly reduced), and `new_utxo_merkle_root` is the
Merkle root of the ids of `new_utxos` in that order, the all-zero hash
when `new_utxos` is empty. -/
theorem match_orders_emission_and_root (sha : List Nat → Hash) (input : BatchInput)
    (out : BatchOutput) (h : match_orders sha input = some out) :
    out.new_utxos =
      (((matchLoop (buyBook sha input) (sellBook sha input)).residBuys ++
        (matchLoop (buyBook sha input) (sellBook sha input)).residSells).map
        fun e => Utxo.new sha e.order) ∧
    (matchLoop (buyBook sha input) (sellBook sha input)).residBuys.tail <:+
      buyBook sha input ∧
    (matchLoop (buyBook sha input) (sellBook sha input)).residSells.tail <:+
      sellBook sha input ∧
    (∀ e ∈ (matchLoop (buyBook sha input) (sellBook sha input)).residBuys,
      coreMem e (buyBook sha input)) ∧
    (∀ e ∈ (matchLoop (buyBook sha input) (sellBook sha input)).residSells,
      coreMem e (sellBook sha input)) ∧
    out.new_utxo_merkle_root = compute_utxo_merkle_root sha (out.new_utxos.map fun u => u.id) ∧
    (out.new_utxos = [] → out.new_utxo_merkle_root = zeroHash) := by
  obtain ⟨hb, hf, hn, hc, hr⟩ := match_orders_some sha input out h
  obtain ⟨hlen, ⟨ht1, ht2⟩, hmB, hmS⟩ :=
    matchLoop_resid (buyBook sha input) (sellBook sha input)
  refine ⟨hn, ht1, ht2, hmB, hmS, hr, ?_⟩
  intro hempty
  rw [hr, hempty]
  rfl

/-- The no-cross scenario: two new orders that do not cross. -/
def c2In : BatchInput :=
  { batch_index := 1, utxo_merkle_root := zeroHash,
    existing_utxos_with_proofs := [],
    new_orders :=
      [ { side := Side.Buy, price := 100, quantity := 10, owner := 7, nonce := 1,
          expiry_batch := 10 },
        { side := Side.Sell, price := 101, quantity := 10, owner := 8, nonce := 2,
          expiry_batch := 10 } ] }

/-- The batch output of `c2In`. -/
def c2Out : BatchOutput :=
  (match_ordersF demoSha c2In).getD
    { batch_index := 0, fills := [], new_utxos := [], consumed_utxo_ids := [],
      new_utxo_merkle_root := [] }

theorem match_orders_emission_and_root_app :
    match_orders demoSha c2In = some c2Out ∧
    c2Out.new_utxo_merkle_root =
      compute_utxo_merkle_root demoSha (c2Out.new_utxos.map fun u => u.id) := by
  have h : match_orders demoSha c2In = some c2Out := by
    rw [← match_ordersF_eq]
    decide
  exact ⟨h, (match_orders_emission_and_root demoSha c2In c2Out h).2.2.2.2.2.1⟩

/-- C8: expiry is handled without error — every expired existing UTXO's id
lands in `consumed_utxo_ids`; dropping the expired new orders from the
input beforehand leaves the result unchanged (they are silently ignored
and reach neither books, fills, new UTXOs, nor consumed ids); and no UTXO
in `new_utxos` has `expiry_batch < batch_index` (invariant I2). -/
theorem match_orders_expiry_handling (sha : List Nat → Hash) (input : BatchInput)
    (out : BatchOutput) (h : match_orders sha input = some out) :
    (∀ u ∈ input.existing_utxos_with_proofs, u.utxo.isExpired input.batch_index = true →
      u.utxo.id ∈ out.consumed_utxo_ids) ∧
    match_orders sha input = match_orders sha
      { input with new_orders :=
          input.new_orders.filter fun o => !decide (o.expiry_batch < input.batch_index) } ∧
    (∀ u ∈ out.new_utxos, ¬ u.order.expiry_batch < input.batch_index) := by
  obtain ⟨hb, hf, hn, hc, hr⟩ := match_orders_some sha input out h
  refine ⟨?_, ?_, ?_⟩
  · intro u hu hexp
    rw [hc]
    apply List.mem_append_left
    unfold expiredIds
    exact List.mem_map.mpr ⟨u, List.mem_filter.mpr ⟨hu, hexp⟩, rfl⟩
  · unfold match_orders allProofsOk buyBook sellBook bookEntries expiredIds liveExisting
    simp only [newEntries_filter]
  · intro u hu
    rw [hn] at hu
    obtain ⟨e, he, rfl⟩ := List.mem_map.mp hu
    obtain ⟨hlen, ht, hmB, hmS⟩ := matchLoop_resid (buyBook sha input) (sellBook sha input)
    rcases List.mem_append.mp he with hb' | hs'
    · obtain ⟨e0, he0, hsq⟩ := hmB e hb'
      have := buyBook_not_expired sha input e0 he0
      have hexp := hsq.2.2.2.2.2
      simp only [Utxo.new]
      omega
    · obtain ⟨e0, he0, hsq⟩ := hmS e hs'
      have := sellBook_not_expired sha input e0 he0
      have hexp := hsq.2.2.2.2.2
      simp only [Utxo.new]
      omega

/-- An existing UTXO that is expired at batch 1. -/
def c8Utxo : Utxo :=
  Utxo.new demoSha
    { side := Side.Sell, price := 100, quantity := 10, owner := 7, nonce := 5,
      expiry_batch := 0 }

/-- Batch input with one expired existing UTXO (single-leaf proof), one
expired new order and one live new order. -/
def c8In : BatchInput :=
  { batch_index := 1, utxo_merkle_root := c8Utxo.id,
    existing_utxos_with_proofs := [{ utxo := c8Utxo, proof_hashes := [], leaf_index := 0 }],
    new_orders :=
      [ { side := Side.Buy, price := 90, quantity := 2, owner := 8, nonce := 6,
          expiry_batch := 0 },
        { side := Side.Buy, price := 95, quantity := 3, owner := 8, nonce := 7,
          expiry_batch := 10 } ] }

/-- The batch output of `c8In`. -/
def c8Out : BatchOutput :=
  (match_ordersF demoSha c8In).getD
    { batch_index := 0, fills := [], new_utxos := [], consumed_utxo_ids := [],
      new_utxo_merkle_root := [] }

theorem match_orders_expiry_handling_app :
    match_orders demoSha c8In = some c8Out ∧ c8Utxo.id ∈ c8Out.consumed_utxo_ids := by
  have h : match_orders demoSha c8In = some c8Out := by
    rw [← match_ordersF_eq]
    decide
  refine ⟨h, (match_orders_expiry_handling demoSha c8In c8Out h).1
    { utxo := c8Utxo, proof_hashes := [], leaf_index := 0 } (by decide) (by decide)⟩

/-! ## Claim C1: fills -/

/-- The fill `f` was emitted for buy head `b` and sell head `s` following
the source's maker rule: the entry with the smaller nonce is the maker
(the sell entry on a nonce tie), the execution price and the maker/taker
owners and ids come from that choice, and `maker_is_seller` holds exactly
when the maker is the sell entry. -/
def FillFrom (f : Fill) (b s : OrderEntry) : Prop :=
  if b.order.nonce < s.order.nonce then
    f.maker_utxo_id = b.utxo_id ∧ f.taker_utxo_id = s.utxo_id ∧
      f.price = b.order.price ∧ f.maker = b.order.owner ∧ f.taker = s.order.owner ∧
      f.maker_is_seller = false
  else
    f.maker_utxo_id = s.utxo_id ∧ f.taker_utxo_id = b.utxo_id ∧
      f.price = s.order.price ∧ f.maker = s.order.owner ∧ f.taker = b.order.owner ∧
      f.maker_is_seller = true

theorem FillFrom_congr {f : Fill} {b s b' s' : OrderEntry}
    (h1 : sameButQty b b') (h2 : sameButQty s s') (hf : FillFrom f b s) :
    FillFrom f b' s' := by
  obtain ⟨i1, _, p1, o1, n1, _⟩ := h1
  obtain ⟨i2, _, p2, o2, n2, _⟩ := h2
  unfold FillFrom at hf ⊢
  rw [← i1, ← i2, ← p1, ← p2, ← o1, ← o2, ← n1, ← n2]
  exact hf

/-- Every fill of the loop has positive quantity (given positive book
quantities) and follows the maker rule for a crossing pair of entries of
the two books (up to the loop's quantity updates). -/
theorem matchLoop_fills_from : ∀ (buys sells : List OrderEntry),
    (∀ e ∈ buys, 0 < e.order.quantity) → (∀ e ∈ sells, 0 < e.order.quantity) →
    ∀ f ∈ (matchLoop buys sells).fills, 0 < f.quantity ∧
      ∃ b s : OrderEntry, coreMem b buys ∧ coreMem s sells ∧
        s.order.price ≤ b.order.price ∧ FillFrom f b s := by
  intro buys sells
  induction buys, sells using matchLoop.induct with
  | case1 s =>
    intro _ _ f hf
    rw [matchLoop] at hf
    simp at hf
  | case2 b bs =>
    intro _ _ f hf
    rw [matchLoop] at hf
    simp at hf
  | case3 b bs s ss hp =>
    intro _ _ f hf
    rw [matchLoop] at hf
    simp [hp] at hf
  | case4 b bs s ss hp fq br sr hb hs ih =>
    intro hpb hps f hf
    have hb' : b.order.quantity - min b.order.quantity s.order.quantity = 0 := hb
    have hs' : s.order.quantity - min b.order.quantity s.order.quantity = 0 := hs
    rw [matchLoop] at hf
    simp only [hp, if_false, hb', hs', if_true, List.mem_cons] at hf
    rcases hf with rfl | hf
    · constructor
      · have h1 := hpb b (List.mem_cons_self b bs)
        have h2 := hps s (List.mem_cons_self s ss)
        by_cases hn : b.order.nonce < s.order.nonce <;>
          simp [mkFill, hn, Nat.lt_min] <;> omega
      · refine ⟨b, s, coreMem_self (List.mem_cons_self b bs),
          coreMem_self (List.mem_cons_self s ss), by omega, ?_⟩
        by_cases hn : b.order.nonce < s.order.nonce <;> simp [FillFrom, mkFill, hn]
    · obtain ⟨hq, b', s', hcb, hcs, hpr, hff⟩ :=
        ih (fun e he => hpb e (List.mem_cons_of_mem b he))
          (fun e he => hps e (List.mem_cons_of_mem s he)) f hf
      exact ⟨hq, b', s', coreMem_cons hcb, coreMem_cons hcs, hpr, hff⟩
  | case5 b bs s ss hp fq br sr hb hs ih =>
    intro hpb hps f hf
    have hb' : b.order.quantity - min b.order.quantity s.order.quantity = 0 := hb
    have hs' : ¬s.order.quantity - min b.order.quantity s.order.quantity = 0 := hs
    rw [matchLoop] at hf
    simp only [hp, if_false, hb', if_true, if_neg hs', List.mem_cons] at hf
    rcases hf with rfl | hf
    · constructor
      · have h1 := hpb b (List.mem_cons_self b bs)
        have h2 := hps s (List.mem_cons_self s ss)
        by_cases hn : b.order.nonce < s.order.nonce <;>
          simp [mkFill, hn, Nat.lt_min] <;> omega
      · refine ⟨b, s, coreMem_self (List.mem_cons_self b bs),
          coreMem_self (List.mem_cons_self s ss), by omega, ?_⟩
        by_cases hn : b.order.nonce < s.order.nonce <;> simp [FillFrom, mkFill, hn]
    · have hpos : ∀ e ∈ (s.withQty (s.order.quantity - min b.order.quantity s.order.quantity)
          :: ss), 0 < e.order.quantity := by
        intro e he
        rcases List.mem_cons.mp he with rfl | h0
        · simp only [OrderEntry.withQty]
          omega
        · exact hps e (List.mem_cons_of_mem s h0)
      obtain ⟨hq, b', s', hcb, hcs, hpr, hff⟩ :=
        ih (fun e he => hpb e (List.mem_cons_of_mem b he)) hpos f hf
      refine ⟨hq, b', s', coreMem_cons hcb, ?_, hpr, hff⟩
      obtain ⟨e0, he0, hsq⟩ := hcs
      rcases List.mem_cons.mp he0 with rfl | h0
      · exact ⟨s, List.mem_cons_self s ss, sameButQty_trans hsq (sameButQty_withQty s _)⟩
      · exact ⟨e0, List.mem_cons_of_mem s h0, hsq⟩
  | case6 b bs s ss hp fq br sr hb hs ih =>
    intro hpb hps f hf
    have hb' : ¬b.order.quantity - min b.order.quantity s.order.quantity = 0 := hb
    have hs' : s.order.quantity - min b.order.quantity s.order.quantity = 0 := hs
    rw [matchLoop] at hf
    simp only [hp, if_false, if_neg hb', hs', if_true, List.mem_cons] at hf
    rcases hf with rfl | hf
    · constructor
      · have h1 := hpb b (List.mem_cons_self b bs)
        have h2 := hps s (List.mem_cons_self s ss)
        by_cases hn : b.order.nonce < s.order.nonce <;>
          simp [mkFill, hn, Nat.lt_min] <;> omega
      · refine ⟨b, s, coreMem_self (List.mem_cons_self b bs),
          coreMem_self (List.mem_cons_self s ss), by omega, ?_⟩
        by_cases hn : b.order.nonce < s.order.nonce <;> simp [FillFrom, mkFill, hn]
    · have hpos : ∀ e ∈ (b.withQty (b.order.quantity - min b.order.quantity s.order.quantity)
          :: bs), 0 < e.order.quantity := by
        intro e he
        rcases List.mem_cons.mp he with rfl | h0
        · simp only [OrderEntry.withQty]
          omega
        · exact hpb e (List.mem_cons_of_mem b h0)
      obtain ⟨hq, b', s', hcb, hcs, hpr, hff⟩ :=
        ih hpos (fun e he => hps e (List.mem_cons_of_mem s he)) f hf
      refine ⟨hq, b', s', ?_, coreMem_cons hcs, hpr, hff⟩
      obtain ⟨e0, he0, hsq⟩ := hcb
      rcases List.mem_cons.mp he0 with rfl | h0
      · exact ⟨b, List.mem_cons_self b bs, sameButQty_trans hsq (sameButQty_withQty b _)⟩
      · exact ⟨e0, List.mem_cons_of_mem b h0, hsq⟩
  | case7 b bs s ss hp fq br sr hb hs =>
    intro _ _ f hf
    have hb' : ¬b.order.quantity - min b.order.quantity s.order.quantity = 0 := hb
    have hs' : ¬s.order.quantity - min b.order.quantity s.order.quantity = 0 := hs
    rw [matchLoop] at hf
    simp only [hp, if_false, if_neg hb', if_neg hs'] at hf
    simp at hf

/-- Every order in the input has strictly positive quantity (the spec's
§3 well-formedness condition on quantities). -/
def PositiveQuantities (input : BatchInput) : Prop :=
  (∀ u ∈ input.existing_utxos_with_proofs, 0 < u.utxo.order.quantity) ∧
    ∀ o ∈ input.new_orders, 0 < o.quantity

theorem bookEntries_pos (sha : List Nat → Hash) (input : BatchInput)
    (hq : PositiveQuantities input) :
    ∀ e ∈ bookEntries sha input, 0 < e.order.quantity := by
  intro e he
  unfold bookEntries at he
  rcases List.mem_append.mp he with hl | hn
  · unfold liveExisting at hl
    obtain ⟨u, hu, rfl⟩ := List.mem_map.mp hl
    exact hq.1 u (List.mem_of_mem_filter hu)
  · unfold newEntries at hn
    obtain ⟨o, ho, rfl⟩ := List.mem_map.mp hn
    exact hq.2 o (List.mem_of_mem_filter ho)

/-- C1 (amended): provided every order in the batch input has strictly
positive quantity, every fill of a successful `match_orders` run has
strictly positive quantity, and there are a buy-book entry and a
sell-book entry crossing in price (sell price ≤ buy price) such that the
fill's price is the price of the maker — the entry with the smaller nonce
(the sell entry on a nonce tie) — its maker/taker ids and owners come
from that maker/taker split, and `maker_is_seller` holds exactly when the
maker is the sell-book entry.  Without the positivity precondition
zero-quantity fills are emitted (see the counterexample). -/
theorem match_orders_fill_sound (sha : List Nat → Hash) (input : BatchInput)
    (out : BatchOutput) (hq : PositiveQuantities input)
    (h : match_orders sha input = some out) :
    ∀ f ∈ out.fills, 0 < f.quantity ∧
      ∃ b ∈ buyBook sha input, ∃ s ∈ sellBook sha input,
        s.order.price ≤ b.order.price ∧ FillFrom f b s := by
  obtain ⟨hbi, hf, hn, hc, hr⟩ := match_orders_some sha input out h
  intro f hmem
  rw [hf] at hmem
  have hposB : ∀ e ∈ buyBook sha input, 0 < e.order.quantity := by
    intro e he
    exact bookEntries_pos sha input hq e
      (List.mem_of_mem_filter ((mem_buyBook_iff sha input e).mp he))
  have hposS : ∀ e ∈ sellBook sha input, 0 < e.order.quantity := by
    intro e he
    exact bookEntries_pos sha input hq e
      (List.mem_of_mem_filter ((mem_sellBook_iff sha input e).mp he))
  obtain ⟨hqty, b, s, hcb, hcs, hpr, hff⟩ :=
    matchLoop_fills_from (buyBook sha input) (sellBook sha input) hposB hposS f hmem
  obtain ⟨b0, hb0, hsb⟩ := hcb
  obtain ⟨s0, hs0, hss⟩ := hcs
  refine ⟨hqty, b0, hb0, s0, hs0, ?_, FillFrom_congr hsb hss hff⟩
  rw [← hsb.2.2.1, ← hss.2.2.1]
  exact hpr

/-- Batch input with a zero-quantity buy order crossing a sell order. -/
def c1In : BatchInput :=
  { batch_index := 1, utxo_merkle_root := zeroHash,
    existing_utxos_with_proofs := [],
    new_orders :=
      [ { side := Side.Buy, price := 100, quantity := 0, owner := 7, nonce := 1,
          expiry_batch := 10 },
        { side := Side.Sell, price := 100, quantity := 5, owner := 8, nonce := 2,
          expiry_batch := 10 } ] }

/-- C1 counterexample: with a zero-quantity order in the input, the batch
emits a fill whose quantity is 0, so fills are not always strictly
positive. -/
theorem match_orders_zero_qty_fill_cex :
    ((match_orders demoSha c1In).map fun o => o.fills.map fun f => f.quantity) = some [0] := by
  rw [← match_ordersF_eq]
  decide

/-- Batch input with one crossing pair of positive-quantity orders. -/
def c1wIn : BatchInput :=
  { batch_index := 1, utxo_merkle_root := zeroHash,
    existing_utxos_with_proofs := [],
    new_orders :=
      [ { side := Side.Buy, price := 100, quantity := 10, owner := 7, nonce := 1,
          expiry_batch := 10 },
        { side := Side.Sell, price := 100, quantity := 10, owner := 8, nonce := 2,
          expiry_batch := 10 } ] }

/-- The batch output of `c1wIn`. -/
def c1wOut : BatchOutput :=
  (match_ordersF demoSha c1wIn).getD
    { batch_index := 0, fills := [], new_utxos := [], consumed_utxo_ids := [],
      new_utxo_merkle_root := [] }

/-- The single fill of `c1wOut`. -/
def c1wFill : Fill :=
  c1wOut.fills.headD
    { maker_utxo_id := [], taker_utxo_id := [], price := 0, quantity := 0, maker := 0,
      taker := 0, maker_is_seller := false }

theorem match_orders_fill_sound_app :
    0 < c1wFill.quantity ∧
    ∃ b ∈ buyBook demoSha c1wIn, ∃ s ∈ sellBook demoSha c1wIn,
      s.order.price ≤ b.order.price ∧ FillFrom c1wFill b s := by
  have hq : PositiveQuantities c1wIn := by
    constructor
    · intro u hu
      simp [c1wIn] at hu
    · decide
  have h : match_orders demoSha c1wIn = some c1wOut := by
    rw [← match_ordersF_eq]
    decide
  exact match_orders_fill_sound demoSha c1wIn c1wOut hq h c1wFill (by decide)

/-! ## Claim C3: consumed ids -/

/-- The utxo ids of a list of book entries, in order. -/
def bookIds (l : List OrderEntry) : List Hash := l.map fun e => e.utxo_id

/-- Every loop-consumed id is the id of some book entry. -/
theorem matchLoop_consumed_sub : ∀ (buys sells : List OrderEntry),
    ∀ i ∈ (matchLoop buys sells).consumed, i ∈ bookIds buys ∨ i ∈ bookIds sells := by
  intro buys sells
  induction buys, sells using matchLoop.induct with
  | case1 s =>
    intro i hi
    rw [matchLoop] at hi
    simp at hi
  | case2 b bs =>
    intro i hi
    rw [matchLoop] at hi
    simp at hi
  | case3 b bs s ss hp =>
    intro i hi
    rw [matchLoop] at hi
    simp [hp] at hi
  | case4 b bs s ss hp fq br sr hb hs ih =>
    intro i hi
    have hb' : b.order.quantity - min b.order.quantity s.order.quantity = 0 := hb
    have hs' : s.order.quantity - min b.order.quantity s.order.quantity = 0 := hs
    rw [matchLoop] at hi
    simp only [hp, if_false, hb', hs', if_true, List.mem_cons] at hi
    rcases hi with rfl | hi
    · left; exact List.mem_map.mpr ⟨b, List.mem_cons_self b bs, rfl⟩
    rcases hi with rfl | hi
    · right; exact List.mem_map.mpr ⟨s, List.mem_cons_self s ss, rfl⟩
    rcases ih i hi with h | h
    · left; unfold bookIds at h ⊢
      obtain ⟨e, he, rfl⟩ := List.mem_map.mp h
      exact List.mem_map.mpr ⟨e, List.mem_cons_of_mem b he, rfl⟩
    · right; unfold bookIds at h ⊢
      obtain ⟨e, he, rfl⟩ := List.mem_map.mp h
      exact List.mem_map.mpr ⟨e, List.mem_cons_of_mem s he, rfl⟩
  | case5 b bs s ss hp fq br sr hb hs ih =>
    intro i hi
    have hb' : b.order.quantity - min b.order.quantity s.order.quantity = 0 := hb
    have hs' : ¬s.order.quantity - min b.order.quantity s.order.quantity = 0 := hs
    rw [matchLoop] at hi
    simp only [hp, if_false, hb', if_true, if_neg hs', List.mem_cons] at hi
    rcases hi with rfl | hi
    · left; exact List.mem_map.mpr ⟨b, List.mem_cons_self b bs, rfl⟩
    rcases ih i hi with h | h
    · left; unfold bookIds at h ⊢
      obtain ⟨e, he, rfl⟩ := List.mem_map.mp h
      exact List.mem_map.mpr ⟨e, List.mem_cons_of_mem b he, rfl⟩
    · right; unfold bookIds at h ⊢
      obtain ⟨e, he, rfl⟩ := List.mem_map.mp h
      rcases List.mem_cons.mp he with rfl | h0
      · exact List.mem_map.mpr ⟨s, List.mem_cons_self s ss, rfl⟩
      · exact List.mem_map.mpr ⟨e, List.mem_cons_of_mem s h0, rfl⟩
  | case6 b bs s ss hp fq br sr hb hs ih =>
    intro i hi
    have hb' : ¬b.order.quantity - min b.order.quantity s.order.quantity = 0 := hb
    have hs' : s.order.quantity - min b.order.quantity s.order.quantity = 0 := hs
    rw [matchLoop] at hi
    simp only [hp, if_false, if_neg hb', hs', if_true, List.mem_cons] at hi
    rcases hi with rfl | hi
    · right; exact List.mem_map.mpr ⟨s, List.mem_cons_self s ss, rfl⟩
    rcases ih i hi with h | h
    · left; unfold bookIds at h ⊢
      obtain ⟨e, he, rfl⟩ := List.mem_map.mp h
      rcases List.mem_cons.mp he with rfl | h0
      · exact List.mem_map.mpr ⟨b, List.mem_cons_self b bs, rfl⟩
      · exact List.mem_map.mpr ⟨e, List.mem_cons_of_mem b h0, rfl⟩
    · right; unfold bookIds at h ⊢
      obtain ⟨e, he, rfl⟩ := List.mem_map.mp h
      exact List.mem_map.mpr ⟨e, List.mem_cons_of_mem s he, rfl⟩
  | case7 b bs s ss hp fq br sr hb hs =>
    intro i hi
    have hb' : ¬b.order.quantity - min b.order.quantity s.order.quantity = 0 := hb
    have hs' : ¬s.order.quantity - min b.order.quantity s.order.quantity = 0 := hs
    rw [matchLoop] at hi
    simp only [hp, if_false, if_neg hb', if_neg hs'] at hi
    simp at hi

/-- Loop-consumed ids are distinct, provided the book ids are. -/
theorem matchLoop_consumed_nodup : ∀ (buys sells : List OrderEntry),
    (bookIds buys ++ bookIds sells).Nodup → (matchLoop buys sells).consumed.Nodup := by
  intro buys sells
  induction buys, sells using matchLoop.induct with
  | case1 s =>
    intro _
    rw [matchLoop]
    simp
  | case2 b bs =>
    intro _
    rw [matchLoop]
    simp
  | case3 b bs s ss hp =>
    intro _
    rw [matchLoop]
    simp [hp]
  | case4 b bs s ss hp fq br sr hb hs ih =>
    intro hnd
    have hb' : b.order.quantity - min b.order.quantity s.order.quantity = 0 := hb
    have hs' : s.order.quantity - min b.order.quantity s.order.quantity = 0 := hs
    simp only [bookIds, List.map_cons] at hnd
    rw [List.nodup_append] at hnd
    obtain ⟨hnb, hns, hdisj⟩ := hnd
    rw [List.nodup_cons] at hnb hns
    have hbm : b.utxo_id ∉ (s.utxo_id :: (ss.map fun e => e.utxo_id)) :=
      List.disjoint_left.mp hdisj (List.mem_cons_self _ _)
    rw [List.mem_cons] at hbm
    push_neg at hbm
    have hsub := matchLoop_consumed_sub bs ss
    have hnd' : (bookIds bs ++ bookIds ss).Nodup := by
      have hss : (bookIds bs ++ bookIds ss).Sublist
          ((b.utxo_id :: (bs.map fun e => e.utxo_id)) ++
            (s.utxo_id :: (ss.map fun e => e.utxo_id))) :=
        List.Sublist.append (List.sublist_cons_self _ _) (List.sublist_cons_self _ _)
      refine List.Nodup.sublist hss ?_
      rw [List.nodup_append]
      exact ⟨List.nodup_cons.mpr hnb, List.nodup_cons.mpr hns, hdisj⟩
    rw [matchLoop]
    simp only [hp, if_false, hb', hs', if_true]
    rw [List.nodup_cons, List.nodup_cons]
    refine ⟨?_, ?_, ih hnd'⟩
    · rw [List.mem_cons]
      push_neg
      refine ⟨hbm.1, ?_⟩
      intro hmem
      rcases hsub _ hmem with hh | hh
      · exact hnb.1 hh
      · exact hbm.2 hh
    · intro hmem
      rcases hsub _ hmem with hh | hh
      · exact (List.disjoint_left.mp hdisj (List.mem_cons_of_mem _ hh))
          (List.mem_cons_self _ _)
      · exact hns.1 hh
  | case5 b bs s ss hp fq br sr hb hs ih =>
    intro hnd
    have hb' : b.order.quantity - min b.order.quantity s.order.quantity = 0 := hb
    have hs' : ¬s.order.quantity - min b.order.quantity s.order.quantity = 0 := hs
    simp only [bookIds, List.map_cons] at hnd
    rw [List.nodup_append] at hnd
    obtain ⟨hnb, hns, hdisj⟩ := hnd
    rw [List.nodup_cons] at hnb
    have hbm : b.utxo_id ∉ (s.utxo_id :: (ss.map fun e => e.utxo_id)) :=
      List.disjoint_left.mp hdisj (List.mem_cons_self _ _)
    have hsub := matchLoop_consumed_sub bs
      (s.withQty (s.order.quantity - min b.order.quantity s.order.quantity) :: ss)
    have hnd' : (bookIds bs ++
        bookIds (s.withQty (s.order.quantity - min b.order.quantity s.order.quantity)
          :: ss)).Nodup := by
      have hss : (bookIds bs ++ (s.utxo_id :: (ss.map fun e => e.utxo_id))).Sublist
          ((b.utxo_id :: (bs.map fun e => e.utxo_id)) ++
            (s.utxo_id :: (ss.map fun e => e.utxo_id))) :=
        List.Sublist.append (List.sublist_cons_self _ _) (List.Sublist.refl _)
      refine List.Nodup.sublist hss ?_
      rw [List.nodup_append]
      exact ⟨List.nodup_cons.mpr hnb, hns, hdisj⟩
    rw [matchLoop]
    simp only [hp, if_false, hb', if_true, if_neg hs']
    rw [List.nodup_cons]
    refine ⟨?_, ih hnd'⟩
    intro hmem
    rcases hsub _ hmem with hh | hh
    · exact hnb.1 hh
    · exact hbm hh
  | case6 b bs s ss hp fq br sr hb hs ih =>
    intro hnd
    have hb' : ¬b.order.quantity - min b.order.quantity s.order.quantity = 0 := hb
    have hs' : s.order.quantity - min b.order.quantity s.order.quantity = 0 := hs
    simp only [bookIds, List.map_cons] at hnd
    rw [List.nodup_append] at hnd
    obtain ⟨hnb, hns, hdisj⟩ := hnd
    rw [List.nodup_cons] at hns
    have hsub := matchLoop_consumed_sub
      (b.withQty (b.order.quantity - min b.order.quantity s.order.quantity) :: bs) ss
    have hnd' : (bookIds (b.withQty (b.order.quantity - min b.order.quantity s.order.quantity)
        :: bs) ++ bookIds ss).Nodup := by
      have hss : ((b.utxo_id :: (bs.map fun e => e.utxo_id)) ++
          (ss.map fun e => e.utxo_id)).Sublist
          ((b.utxo_id :: (bs.map fun e => e.utxo_id)) ++
            (s.utxo_id :: (ss.map fun e => e.utxo_id))) :=
        List.Sublist.append (List.Sublist.refl _) (List.sublist_cons_self _ _)
      refine List.Nodup.sublist hss ?_
      rw [List.nodup_append]
      exact ⟨hnb, List.nodup_cons.mpr hns, hdisj⟩
    rw [matchLoop]
    simp only [hp, if_false, if_neg hb', hs', if_true]
    rw [List.nodup_cons]
    refine ⟨?_, ih hnd'⟩
    intro hmem
    rcases hsub _ hmem with hh | hh
    · simp only [bookIds, List.map_cons, List.mem_cons, OrderEntry.withQty] at hh
      rcases hh with hh | hh
      · exact (List.disjoint_left.mp hdisj (List.mem_cons_self _ _))
          (hh ▸ List.mem_cons_self _ _)
      · exact (List.disjoint_left.mp hdisj (List.mem_cons_of_mem _ hh))
          (List.mem_cons_self _ _)
    · exact hns.1 hh
  | case7 b bs s ss hp fq br sr hb hs =>
    intro _
    have hb' : ¬b.order.quantity - min b.order.quantity s.order.quantity = 0 := hb
    have hs' : ¬s.order.quantity - min b.order.quantity s.order.quantity = 0 := hs
    rw [matchLoop]
    simp [hp, if_neg hb', if_neg hs']

/-- C3 (amended): `consumed_utxo_ids` is the ids of the expired existing
UTXOs (in input order) followed by the loop-consumed ids of fully filled
book entries (in fill order); every loop-consumed id is the id of some
book entry — including entries freshly created from this batch's new
orders, so `consumed_utxo_ids` is not restricted to pre-batch UTXO ids —
and the whole list is duplicate-free whenever the expired ids and the
book-entry ids are pairwise distinct. -/
theorem match_orders_consumed_structure (sha : List Nat → Hash) (input : BatchInput)
    (out : BatchOutput) (h : match_orders sha input = some out) :
    out.consumed_utxo_ids =
      expiredIds input.batch_index input.existing_utxos_with_proofs ++
        (matchLoop (buyBook sha input) (sellBook sha input)).consumed ∧
    (∀ i ∈ (matchLoop (buyBook sha input) (sellBook sha input)).consumed,
      i ∈ bookIds (buyBook sha input) ∨ i ∈ bookIds (sellBook sha input)) ∧
    ((expiredIds input.batch_index input.existing_utxos_with_proofs ++
        (bookIds (buyBook sha input) ++ bookIds (sellBook sha input))).Nodup →
      out.consumed_utxo_ids.Nodup) := by
  obtain ⟨hbi, hf, hn, hc, hr⟩ := match_orders_some sha input out h
  refine ⟨hc, matchLoop_consumed_sub _ _, ?_⟩
  intro hnd
  rw [hc]
  rw [List.nodup_append] at hnd
  obtain ⟨hE, hBS, hdisj⟩ := hnd
  rw [List.nodup_append]
  refine ⟨hE, matchLoop_consumed_nodup _ _ hBS, ?_⟩
  rw [List.disjoint_left]
  intro a ha hmem
  rcases matchLoop_consumed_sub (buyBook sha input) (sellBook sha input) a hmem with hh | hh
  · exact (List.disjoint_left.mp hdisj ha) (List.mem_append_left _ hh)
  · exact (List.disjoint_left.mp hdisj ha) (List.mem_append_right _ hh)

/-- C3 counterexample: a batch with no existing UTXOs at all whose two
new orders fully cross — `consumed_utxo_ids` nevertheless contains two
ids (those of the UTXOs freshly created from this batch's new orders),
so it is not restricted to ids of pre-batch UTXOs. -/
theorem match_orders_consumed_fresh_cex :
    c1wIn.existing_utxos_with_proofs = [] ∧
    ((match_orders demoSha c1wIn).map fun o => o.consumed_utxo_ids.length) = some 2 := by
  refine ⟨rfl, ?_⟩
  rw [← match_ordersF_eq]
  decide

/-- Batch input with one expired existing UTXO and a fully crossing pair
of new orders: consumed ids come from both expiry and full fills. -/
def c3wIn : BatchInput :=
  { batch_index := 1, utxo_merkle_root := c8Utxo.id,
    existing_utxos_with_proofs := [{ utxo := c8Utxo, proof_hashes := [], leaf_index := 0 }],
    new_orders :=
      [ { side := Side.Buy, price := 100, quantity := 5, owner := 7, nonce := 11,
          expiry_batch := 10 },
        { side := Side.Sell, price := 100, quantity := 5, owner := 8, nonce := 12,
          expiry_batch := 10 } ] }

/-- The batch output of `c3wIn`. -/
def c3wOut : BatchOutput :=
  (match_ordersF demoSha c3wIn).getD
    { batch_index := 0, fills := [], new_utxos := [], consumed_utxo_ids := [],
      new_utxo_merkle_root := [] }

theorem match_orders_consumed_structure_app :
    match_orders demoSha c3wIn = some c3wOut ∧
    c3wOut.consumed_utxo_ids.Nodup ∧ c3wOut.consumed_utxo_ids.length = 3 := by
  have h : match_orders demoSha c3wIn = some c3wOut := by
    rw [← match_ordersF_eq]
    decide
  exact ⟨h, (match_orders_consumed_structure demoSha c3wIn c3wOut h).2.2 (by decide),
    by decide⟩

/-! ## Claim C9: encode/decode round trip -/

/-- Modelled from the spec: the field-for-field decoder of a wire fill
(no `From<&SolFill> for Fill` exists in src). -/
def Fill.fromSol (sol : SolFill) : Fill :=
  { maker_utxo_id := sol.makerUtxoId, taker_utxo_id := sol.takerUtxoId,
    price := sol.price, quantity := sol.quantity, maker := sol.maker,
    taker := sol.taker, maker_is_seller := sol.makerIsSeller }

/-- Modelled from the spec: the aggregate decoder of a wire batch output
is absent from src.  Its UTXO elements are decoded with the repository's
own total `From<&SolUtxo> for Utxo` impl (`Utxo.fromSol`, the decoder the
host applies to the journal's `newUtxos`), and its fills with the
field-for-field `Fill.fromSol` above. -/
def BatchOutput.from_sol (sol : SolBatchOutput) : BatchOutput :=
  { batch_index := sol.batchIndex, fills := sol.fills.map Fill.fromSol,
    new_utxos := sol.newUtxos.map Utxo.fromSol,
    consumed_utxo_ids := sol.consumedUtxoIds,
    new_utxo_merkle_root := sol.newUtxoMerkleRoot }

/-- Modelled from the spec: the aggregate decoder of a wire journal into
the Steel commitment and the batch output (absent from src), decoding
the UTXO elements with the repository's `Utxo.fromSol`. -/
def SolJournal.decode (sol : SolJournal) : Nat × BatchOutput :=
  (sol.steelCommitment,
    { batch_index := sol.batchIndex, fills := sol.fills.map Fill.fromSol,
      new_utxos := sol.newUtxos.map Utxo.fromSol,
      consumed_utxo_ids := sol.consumedUtxoIds,
      new_utxo_merkle_root := sol.newUtxoMerkleRoot })

theorem order_fromSol_toSol (o : Order) : Order.fromSol o.toSol = o := by
  cases o with
  | mk side price quantity owner nonce expiry_batch =>
    cases side <;> rfl

theorem uwp_fromSol_toSol (u : UtxoWithProof) (h : u.leaf_index < 2 ^ 64) :
    UtxoWithProof.fromSol u.toSol = u := by
  obtain ⟨⟨id, order⟩, proof_hashes, leaf_index⟩ := u
  simp only [UtxoWithProof.toSol, UtxoWithProof.fromSol]
  cases order with
  | mk side price quantity owner nonce expiry_batch =>
    cases side <;> simp_all [Side.toByte]

theorem utxo_fromSol_toSol (u : Utxo) : Utxo.fromSol u.toSol = u := by
  obtain ⟨id, order⟩ := u
  cases order with
  | mk side price quantity owner nonce expiry_batch =>
    cases side <;> rfl

theorem map_utxo_round (l : List Utxo) :
    List.map Utxo.fromSol (l.map Utxo.toSol) = l := by
  induction l with
  | nil => rfl
  | cons x xs ih =>
    simp only [List.map_cons, utxo_fromSol_toSol, ih]

theorem map_order_round (l : List Order) :
    List.map Order.fromSol (l.map Order.toSol) = l := by
  induction l with
  | nil => rfl
  | cons x xs ih =>
    simp only [List.map_cons, order_fromSol_toSol, ih]

theorem map_fill_round (l : List Fill) :
    List.map Fill.fromSol (l.map Fill.toSol) = l := by
  induction l with
  | nil => rfl
  | cons x xs ih =>
    have hx : Fill.fromSol x.toSol = x := rfl
    simp only [List.map_cons, hx, ih]

theorem map_uwp_round (l : List UtxoWithProof) (h : ∀ u ∈ l, u.leaf_index < 2 ^ 64) :
    List.map UtxoWithProof.fromSol (l.map UtxoWithProof.toSol) = l := by
  induction l with
  | nil => rfl
  | cons x xs ih =>
    simp only [List.map_cons]
    rw [uwp_fromSol_toSol x (h x (List.mem_cons_self x xs)),
      ih fun u hu => h u (List.mem_cons_of_mem x hu)]

/-- C9: decoding the canonical encoding restores the value, field for
field.  For `BatchInput` this is the repository's own `from_sol ∘ to_sol`
(the ABI byte layer of the external alloy crate being the identity on
the Sol structs); it requires each `leaf_index` to fit a 64-bit usize
because `from_sol` truncates an over-wide uint256 to 0.  For
`BatchOutput` and `Journal` the aggregate decoders are modelled from the
spec, with the UTXO elements decoded by the repository's total
`From<&SolUtxo> for Utxo` impl as the host does on journal UTXOs. -/
theorem roundtrip_encode_decode (input : BatchInput) (out : BatchOutput) (c : Nat)
    (hleaf : ∀ u ∈ input.existing_utxos_with_proofs, u.leaf_index < 2 ^ 64) :
    BatchInput.from_sol input.to_sol = input ∧
    BatchOutput.from_sol out.to_sol = out ∧
    SolJournal.decode (out.to_journal c) = (c, out) := by
  refine ⟨?_, ?_, ?_⟩
  · obtain ⟨bi, root, existing, orders⟩ := input
    simp only [BatchInput.to_sol, BatchInput.from_sol]
    rw [map_uwp_round existing hleaf, map_order_round orders]
  · obtain ⟨bi, fills, nus, cons, root⟩ := out
    simp only [BatchOutput.to_sol, BatchOutput.from_sol]
    rw [map_fill_round fills, map_utxo_round nus]
  · obtain ⟨bi, fills, nus, cons, root⟩ := out
    simp only [BatchOutput.to_journal, SolJournal.decode]
    rw [map_fill_round fills, map_utxo_round nus]

theorem roundtrip_encode_decode_app :
    BatchInput.from_sol c8In.to_sol = c8In ∧
    BatchOutput.from_sol c8Out.to_sol = c8Out ∧
    SolJournal.decode (c8Out.to_journal 42) = (42, c8Out) :=
  roundtrip_encode_decode c8In c8Out 42 (by decide)

/-! ## Claim C5: permutation invariance -/

/-- Two sorted permutations of each other are equal when the order can
tie only on entries with equal nonces and the nonces are distinct. -/
theorem sorted_perm_eq {r : OrderEntry → OrderEntry → Prop}
    (hr : ∀ a b : OrderEntry, r a b → r b a → a.order.nonce = b.order.nonce) :
    ∀ l₁ l₂ : List OrderEntry, l₁.Perm l₂ → List.Pairwise r l₁ → List.Pairwise r l₂ →
      (l₁.map fun e => e.order.nonce).Nodup → l₁ = l₂ := by
  intro l₁
  induction l₁ with
  | nil =>
    intro l₂ hp _ _ _
    exact hp.nil_eq
  | cons a t₁ ih =>
    intro l₂ hp hs₁ hs₂ hnd
    cases l₂ with
    | nil =>
      have := hp.length_eq
      simp at this
    | cons b t₂ =>
      have hab : a = b := by
        by_contra hne
        have hbmem : b ∈ a :: t₁ := hp.mem_iff.mpr (List.mem_cons_self b t₂)
        have hamem : a ∈ b :: t₂ := hp.mem_iff.mp (List.mem_cons_self a t₁)
        have hb₁ : b ∈ t₁ := by
          rcases List.mem_cons.mp hbmem with h | h
          · exact absurd h.symm hne
          · exact h
        have ha₂ : a ∈ t₂ := by
          rcases List.mem_cons.mp hamem with h | h
          · exact absurd h hne
          · exact h
        have hrab : r a b := (List.pairwise_cons.mp hs₁).1 b hb₁
        have hrba : r b a := (List.pairwise_cons.mp hs₂).1 a ha₂
        have hnn := hr a b hrab hrba
        rw [List.map_cons, List.nodup_cons] at hnd
        exact hnd.1 (List.mem_map.mpr ⟨b, hb₁, hnn.symm⟩)
      subst hab
      have ht : t₁.Perm t₂ := hp.cons_inv
      rw [ih t₂ ht (List.pairwise_cons.mp hs₁).2 (List.pairwise_cons.mp hs₂).2 ?_]
      rw [List.map_cons, List.nodup_cons] at hnd
      exact hnd.2

theorem buyPrec_antisym_nonce (a b : OrderEntry) (h1 : buyPrec a b) (h2 : buyPrec b a) :
    a.order.nonce = b.order.nonce := by
  unfold buyPrec at h1 h2
  omega

theorem sellPrec_antisym_nonce (a b : OrderEntry) (h1 : sellPrec a b) (h2 : sellPrec b a) :
    a.order.nonce = b.order.nonce := by
  unfold sellPrec at h1 h2
  omega

/-- The stable sort of a permuted list is the same once nonces are
distinct: the order relation is then antisymmetric on the elements at
hand, so the sorted list is unique. -/
theorem insertionSort_perm_eq (r : OrderEntry → OrderEntry → Prop) [DecidableRel r]
    [IsTotal OrderEntry r] [IsTrans OrderEntry r]
    (hr : ∀ a b : OrderEntry, r a b → r b a → a.order.nonce = b.order.nonce)
    (l l' : List OrderEntry) (hperm : l'.Perm l)
    (hnd : (l.map fun e => e.order.nonce).Nodup) :
    List.insertionSort r l' = List.insertionSort r l := by
  have hp : (List.insertionSort r l').Perm (List.insertionSort r l) :=
    ((List.perm_insertionSort r l').trans hperm).trans (List.perm_insertionSort r l).symm
  have hnd' : ((List.insertionSort r l').map fun e => e.order.nonce).Nodup := by
    refine (List.Perm.nodup_iff ?_).mpr hnd
    exact ((List.perm_insertionSort r l').trans hperm).map _
  exact sorted_perm_eq hr (List.insertionSort r l') (List.insertionSort r l) hp
    (List.sorted_insertionSort r l') (List.sorted_insertionSort r l) hnd'

/-- The nonces of a batch input: existing UTXOs' order nonces, then new
orders' nonces. -/
def nonceList (input : BatchInput) : List Nat :=
  (input.existing_utxos_with_proofs.map fun u => u.utxo.order.nonce) ++
    (input.new_orders.map fun o => o.nonce)

theorem bookEntries_nonces_sublist (sha : List Nat → Hash) (input : BatchInput) :
    ((bookEntries sha input).map fun e => e.order.nonce).Sublist (nonceList input) := by
  unfold bookEntries nonceList liveExisting newEntries
  rw [List.map_append, List.map_map, List.map_map]
  exact List.Sublist.append ((List.filter_sublist _).map _) ((List.filter_sublist _).map _)

theorem buyFilter_nonces_nodup (sha : List Nat → Hash) (input : BatchInput)
    (hnd : (nonceList input).Nodup) :
    ((((bookEntries sha input).filter fun e => e.order.side = Side.Buy).map
      fun e => e.order.nonce).Nodup) := by
  refine List.Nodup.sublist ?_ hnd
  exact ((List.filter_sublist _).map _).trans (bookEntries_nonces_sublist sha input)

theorem sellFilter_nonces_nodup (sha : List Nat → Hash) (input : BatchInput)
    (hnd : (nonceList input).Nodup) :
    ((((bookEntries sha input).filter fun e => e.order.side = Side.Sell).map
      fun e => e.order.nonce).Nodup) := by
  refine List.Nodup.sublist ?_ hnd
  exact ((List.filter_sublist _).map _).trans (bookEntries_nonces_sublist sha input)

theorem books_eq_of_perm (sha : List Nat → Hash) (inp inp' : BatchInput)
    (hex : inp'.existing_utxos_with_proofs.Perm inp.existing_utxos_with_proofs)
    (hnew : inp'.new_orders.Perm inp.new_orders)
    (hbi : inp'.batch_index = inp.batch_index)
    (hnd : (nonceList inp).Nodup) :
    buyBook sha inp' = buyBook sha inp ∧ sellBook sha inp' = sellBook sha inp := by
  have hbe : (bookEntries sha inp').Perm (bookEntries sha inp) := by
    unfold bookEntries liveExisting newEntries
    rw [hbi]
    exact ((hex.filter _).map _).append ((hnew.filter _).map _)
  constructor
  · unfold buyBook
    exact insertionSort_perm_eq buyPrec buyPrec_antisym_nonce _ _ (hbe.filter _)
      (buyFilter_nonces_nodup sha inp hnd)
  · unfold sellBook
    exact insertionSort_perm_eq sellPrec sellPrec_antisym_nonce _ _ (hbe.filter _)
      (sellFilter_nonces_nodup sha inp hnd)

/-- C5 (amended): permuting `existing_utxos_with_proofs` or `new_orders`
(keeping each element's own proof and leaf index) leaves the sorted books
identical provided all nonces in the input are pairwise distinct, and
hence leaves `batch_index`, `fills`, `new_utxos` and
`new_utxo_merkle_root` of the `BatchOutput` identical — but
`consumed_utxo_ids` only up to permutation: its expiry segment follows
the input order of the existing UTXOs (see the counterexample). -/
theorem match_orders_perm (sha : List Nat → Hash) (inp inp' : BatchInput)
    (hex : inp'.existing_utxos_with_proofs.Perm inp.existing_utxos_with_proofs)
    (hnew : inp'.new_orders.Perm inp.new_orders)
    (hbi : inp'.batch_index = inp.batch_index)
    (hroot : inp'.utxo_merkle_root = inp.utxo_merkle_root)
    (hnd : (nonceList inp).Nodup) :
    buyBook sha inp' = buyBook sha inp ∧
    sellBook sha inp' = sellBook sha inp ∧
    (match_orders sha inp').isSome = (match_orders sha inp).isSome ∧
    ∀ o' o, match_orders sha inp' = some o' → match_orders sha inp = some o →
      o'.batch_index = o.batch_index ∧ o'.fills = o.fills ∧ o'.new_utxos = o.new_utxos ∧
      o'.new_utxo_merkle_root = o.new_utxo_merkle_root ∧
      o'.consumed_utxo_ids.Perm o.consumed_utxo_ids := by
  obtain ⟨hbB, hbS⟩ := books_eq_of_perm sha inp inp' hex hnew hbi hnd
  have hall : allProofsOk sha inp' = allProofsOk sha inp := by
    rw [Bool.eq_iff_iff]
    unfold allProofsOk
    rw [List.all_eq_true, List.all_eq_true, hroot, hex.length_eq]
    constructor <;> intro h u hu
    · exact h u (hex.mem_iff.mpr hu)
    · exact h u (hex.mem_iff.mp hu)
  have hexp : (expiredIds inp'.batch_index inp'.existing_utxos_with_proofs).Perm
      (expiredIds inp.batch_index inp.existing_utxos_with_proofs) := by
    unfold expiredIds
    rw [hbi]
    exact (hex.filter _).map _
  refine ⟨hbB, hbS, ?_, ?_⟩
  · unfold match_orders
    rw [hall]
    split <;> rfl
  · intro o' o ho' ho
    obtain ⟨hbi', hf', hn', hc', hr'⟩ := match_orders_some sha inp' o' ho'
    obtain ⟨hbi2, hf2, hn2, hc2, hr2⟩ := match_orders_some sha inp o ho
    have hnus : o'.new_utxos = o.new_utxos := by
      rw [hn', hn2, hbB, hbS]
    refine ⟨?_, ?_, hnus, ?_, ?_⟩
    · rw [hbi', hbi2, hbi]
    · rw [hf', hf2, hbB, hbS]
    · rw [hr', hr2, hnus]
    · rw [hc', hc2, hbB, hbS]
      exact hexp.append_right _

/-- First expired sell UTXO of the C5 inputs. -/
def c5Ua : Utxo :=
  Utxo.new demoSha
    { side := Side.Sell, price := 100, quantity := 10, owner := 7, nonce := 21,
      expiry_batch := 0 }

/-- Second expired sell UTXO of the C5 inputs. -/
def c5Ub : Utxo :=
  Utxo.new demoSha
    { side := Side.Sell, price := 101, quantity := 10, owner := 7, nonce := 22,
      expiry_batch := 0 }

/-- `c5Ua` with its own two-leaf Merkle proof (leaf 0). -/
def c5WpA : UtxoWithProof := { utxo := c5Ua, proof_hashes := [c5Ub.id], leaf_index := 0 }

/-- `c5Ub` with its own two-leaf Merkle proof (leaf 1). -/
def c5WpB : UtxoWithProof := { utxo := c5Ub, proof_hashes := [c5Ua.id], leaf_index := 1 }

/-- Batch input with the two expired existing UTXOs in order A, B. -/
def c5In : BatchInput :=
  { batch_index := 1, utxo_merkle_root := demoSha (c5Ua.id ++ c5Ub.id),
    existing_utxos_with_proofs := [c5WpA, c5WpB], new_orders := [] }

/-- The same batch input with the existing UTXOs swapped (each keeping
its own proof and leaf index). -/
def c5InSwapped : BatchInput :=
  { batch_index := 1, utxo_merkle_root := demoSha (c5Ua.id ++ c5Ub.id),
    existing_utxos_with_proofs := [c5WpB, c5WpA], new_orders := [] }

/-- C5 counterexample: permuting the existing UTXOs changes the
`BatchOutput` — the ids of the two expired UTXOs are recorded in
`consumed_utxo_ids` in input order, so swapping the (verifying) inputs
swaps that list. -/
theorem match_orders_permutation_cex :
    c5InSwapped.existing_utxos_with_proofs.Perm c5In.existing_utxos_with_proofs ∧
    c5InSwapped.new_orders = c5In.new_orders ∧
    c5InSwapped.batch_index = c5In.batch_index ∧
    c5InSwapped.utxo_merkle_root = c5In.utxo_merkle_root ∧
    match_orders demoSha c5InSwapped ≠ match_orders demoSha c5In := by
  refine ⟨List.Perm.swap _ _ _, rfl, rfl, rfl, ?_⟩
  rw [← match_ordersF_eq, ← match_ordersF_eq]
  decide

theorem match_orders_perm_app :
    sellBook demoSha c5InSwapped = sellBook demoSha c5In ∧
    (match_orders demoSha c5InSwapped).isSome = (match_orders demoSha c5In).isSome := by
  have h := match_orders_perm demoSha c5In c5InSwapped (List.Perm.swap _ _ _)
    (List.Perm.refl _) rfl rfl (by decide)
  exact ⟨h.2.1, h.2.2.1⟩
